import Mathlib

/-!
# gokv: expiry-aware key-value stores

A shallow embedding of the in-process map store (`gomap/gomap.go`), the
sync.Map store (`syncmap/syncmap.go`), the file store (`file/file.go`) and
the validators of `util/util.go`, in a sequential model: every operation is
a function from the state before the call to the state after it together
with the values the Go method returns.

Conventions of the embedding

* `time.Now()` is an argument of every operation that reads the clock.
* a Go `interface{}` argument is an `Option`: `none` is `nil`; for a decode
  target `some x` is a non-nil pointer whose pointee currently holds `x`.
* a Go `error` result is an `Option GoError`: `none` is `nil`.
* a Go `map[string]T` is an association list with unique keys (`AList`).
* the reader/writer locks only order concurrent callers and are not part of
  the sequential state of the map store.
-/

namespace gokv

/-! ## Time -/

/-- An instant (`time.Time`): nanoseconds elapsed since the zero instant,
January 1 of year 1, 00:00:00 UTC. -/
abbrev Time := Int

/-- A `time.Duration`: a signed number of nanoseconds. -/
abbrev Duration := Int

/-- The method `Time.IsZero`: the instant is the zero instant. -/
def Time.IsZero (t : Time) : Bool := decide (t = 0)

/-- The method `Time.Add`: the instant `t + d`. -/
def Time.Add (t : Time) (d : Duration) : Time := t + d

/-- The method `Time.After`: `t` is strictly later than `u`. -/
def Time.After (t u : Time) : Bool := decide (u < t)

/-- One second as a `time.Duration`. -/
def Second : Duration := 1000000000

/-! ## Errors, bytes, codec -/

/-- A Go error value: its message, and whether `os.IsNotExist` recognises it. -/
structure GoError where
  text : String
  notExist : Bool := false
deriving DecidableEq, Repr

/-- The function `errors.New`. -/
def errors.New (text : String) : GoError := { text := text }

/-- A byte slice. -/
abbrev Bytes := List UInt8

/-- The capability `encoding.Codec`. `α` is the type of what the store hands
to it. `Unmarshal data target` returns the error and what the target holds
after the call. -/
structure Codec (α : Type) where
  Marshal : α → Except GoError Bytes
  Unmarshal : Bytes → α → Option GoError × α

/-- A Go map from strings to `β`. -/
abbrev GoMap (β : Type) := AList (fun _ : String => β)

/-! ## util/util.go -/

namespace util

/-- CheckKey returns an error if k == "". -/
def CheckKey (k : String) : Option GoError :=
  if k = "" then
    some (errors.New "The passed key is an empty string, which is invalid")
  else
    none

/-- CheckVal returns an error if v == nil. -/
def CheckVal {V : Type} (v : Option V) : Option GoError :=
  if v.isNone then
    some (errors.New "The passed value is nil, which is not allowed")
  else
    none

/-- CheckKeyAndValue returns an error if k == "" or if v == nil. -/
def CheckKeyAndValue {V : Type} (k : String) (v : Option V) : Option GoError :=
  match CheckKey k with
  | some err => some err
  | none => CheckVal v

/-- The builtin `make([]byte, n)`: `n` zero bytes. -/
def make (n : Nat) : Bytes := List.replicate n 0

/-- The builtin `copy(dst, src)`: the first `min (len dst) (len src)` bytes of
`dst` are overwritten with those of `src`. -/
def copy (dst src : Bytes) : Bytes :=
  src.take dst.length ++ dst.drop src.length

/-- CopyData: a fresh slice with the contents of `data`. -/
def CopyData (data : Bytes) : Bytes :=
  let result := make data.length
  copy result data

end util

/-! ## gomap/gomap.go -/

namespace gomap

/-- Item identifies a cached piece of data. -/
structure Item where
  ExpiresAt : Time := 0
  Data : Bytes
deriving DecidableEq, Repr

/-- The method `Item.IsExpired`; `now` is what `time.Now()` returns. -/
def Item.IsExpired (i : Item) (now : Time) : Bool :=
  if Time.IsZero i.ExpiresAt then
    false
  else
    Time.After now i.ExpiresAt

/-- The store: the map `m` and the codec. -/
structure Store (V : Type) where
  m : GoMap Item
  codec : Codec (Option V)

/-- What `Get` returns, with the store after the call and what the target
holds after the call. -/
structure GetResult (V : Type) where
  store : Store V
  found : Bool
  err : Option GoError
  out : Option V

variable {V : Type}

/-- SetEx stores the value under the key, expiring after `expires`. -/
def Store.SetEx (s : Store V) (now : Time) (k : String) (v : Option V)
    (expires : Duration) : Store V × Option GoError :=
  match util.CheckKeyAndValue k v with
  | some err => (s, some err)
  | none =>
    match s.codec.Marshal v with
    | .error err => (s, some err)
    | .ok data =>
      let item : Item :=
        if expires = 0 then
          { Data := util.CopyData data }
        else
          { ExpiresAt := Time.Add now expires, Data := util.CopyData data }
      ({ s with m := s.m.insert k item }, none)

/-- Set stores the given value for the given key. -/
def Store.Set (s : Store V) (now : Time) (k : String) (v : Option V) :
    Store V × Option GoError :=
  s.SetEx now k v 0

/-- Get retrieves the stored value for the given key. -/
def Store.Get (s : Store V) (k : String) (v : Option V) : GetResult V :=
  match util.CheckKeyAndValue k v with
  | some err => { store := s, found := false, err := some err, out := v }
  | none =>
    match s.m.lookup k with
    | none => { store := s, found := false, err := none, out := v }
    | some data =>
      let r := s.codec.Unmarshal data.Data v
      { store := s, found := true, err := r.1, out := r.2 }

/-- Has reports whether the store has the key. -/
def Store.Has (s : Store V) (k : String) : Store V × Bool :=
  match util.CheckKey k with
  | some _ => (s, false)
  | none => (s, (s.m.lookup k).isSome)

/-- Delete deletes the stored value for the given key. -/
def Store.Delete (s : Store V) (k : String) : Store V × Option GoError :=
  match util.CheckKey k with
  | some err => (s, some err)
  | none => ({ s with m := s.m.erase k }, none)

/-- The body of the loop of `GC` at the entry `k, v`; `now` is the clock
reading `IsExpired` takes at this entry. -/
def Store.GC.visit (now : Time) (m : GoMap Item) (k : String) (v : Item) :
    GoMap Item :=
  if v.IsExpired now then m.erase k else m

/-- GC recycles expired items: the loop `for k, v := range s.m` runs over the
entries the map holds when the sweep starts, deleting from the map as it
goes. `clock k` is the reading of `time.Now()` taken while the sweep is at
key `k`. -/
def Store.GC (s : Store V) (clock : String → Time) : Store V :=
  { s with
    m := s.m.entries.foldl
      (fun m e => Store.GC.visit (clock e.1) m e.1 e.2) s.m }

/-- The interval `autoGC` sweeps at: 30 seconds when none is configured. -/
def autoGCInterval (interval : Duration) : Duration :=
  if interval = 0 then 30 * Second else interval

end gomap

/-! ## The file system and the path functions the file store calls -/

/-- The file system: the regular files, as a map from path to contents. -/
abbrev FS := GoMap Bytes

/-- The function `os.IsNotExist`; `nil` is not such an error. -/
def os.IsNotExist (err : Option GoError) : Bool :=
  match err with
  | some e => e.notExist
  | none => false

/-- The standard library and the operating system as the file store meets
them: the path functions `url.PathEscape` and `filepath.Clean`; and, for a
path that is not a regular file of the file system, the error a read fails
with (a missing file unless said otherwise; or a directory, a permission)
and what a removal returns (the error of a missing file unless said
otherwise). -/
structure PathLib where
  PathEscape : String → String
  Clean : String → String
  readError : String → GoError := fun path =>
    { text := "open " ++ path ++ ": no such file or directory",
      notExist := true }
  removeError : String → Option GoError := fun path =>
    some { text := "remove " ++ path ++ ": no such file or directory",
           notExist := true }

/-- The function `ioutil.ReadFile`: the contents of the file, or the error of
a path that is not a regular file. -/
def ioutil.ReadFile (lib : PathLib) (fs : FS) (path : String) :
    Except GoError Bytes :=
  match fs.lookup path with
  | some data => .ok data
  | none => .error (lib.readError path)

/-- The function `ioutil.WriteFile`: the file is created or overwritten as a
whole. -/
def ioutil.WriteFile (fs : FS) (path : String) (data : Bytes) :
    FS × Option GoError :=
  (fs.insert path data, none)

/-- The function `os.Remove`: a regular file is removed; for any other path
the regular files stay as they are. -/
def os.Remove (lib : PathLib) (fs : FS) (path : String) :
    FS × Option GoError :=
  match fs.lookup path with
  | some _ => (fs.erase path, none)
  | none => (fs, lib.removeError path)

/-! ## file/file.go -/

namespace file

/-- Item identifies a cached piece of data; `Data` is an `interface{}`. -/
structure Item (V : Type) where
  ExpiresAt : Time := 0
  Data : Option V

/-- The method `Item.IsExpired`; `now` is what `time.Now()` returns. -/
def Item.IsExpired {V : Type} (i : Item V) (now : Time) : Bool :=
  if Time.IsZero i.ExpiresAt then
    false
  else
    Time.After now i.ExpiresAt

/-- The store. `fileLocks` maps a registry key to the identity of its lock
object and is `none` once `Close` has set the map to `nil`; `allocated`
counts the lock objects created so far, so that `new(sync.RWMutex)` yields
the object `allocated`. -/
structure Store (V : Type) where
  fileLocks : Option (GoMap Nat)
  filenameExtension : String
  directory : String
  codec : Codec (Item V)
  allocated : Nat

/-- The store together with the file system it works on. -/
structure World (V : Type) where
  store : Store V
  fs : FS

/-- What `Get` returns, with the world after the call and what the target
holds after the call. -/
structure GetResult (V : Type) where
  world : World V
  found : Bool
  err : Option GoError
  out : Option V

variable {V : Type}

/-- The method `prepFileLock` returns an existing file lock or creates a new
one. Writing to the `nil` map of a closed store is a run-time error. -/
def Store.prepFileLock (s : Store V) (escapedKey : String) :
    Except String (Store V × Nat) :=
  match s.fileLocks with
  | none => .error "assignment to entry in nil map"
  | some locks =>
    match locks.lookup escapedKey with
    | some lock => .ok (s, lock)
    | none =>
      let lock := s.allocated
      .ok ({ s with fileLocks := some (locks.insert escapedKey lock),
                    allocated := s.allocated + 1 }, lock)

/-- The path of the file of a key whose escaped form is `escapedKey`. -/
def Store.filePath (lib : PathLib) (s : Store V) (escapedKey : String) :
    String :=
  let filename :=
    if s.filenameExtension ≠ "" then
      escapedKey ++ "." ++ s.filenameExtension
    else
      escapedKey
  lib.Clean (s.directory ++ "/" ++ filename)

/-- SetEx stores the value under the key, expiring after `expires`. -/
def SetEx (lib : PathLib) (w : World V) (now : Time) (k : String)
    (v : Option V) (expires : Duration) :
    Except String (World V × Option GoError) :=
  match util.CheckKeyAndValue k v with
  | some err => .ok (w, some err)
  | none =>
    let item : Item V :=
      if expires = 0 then
        { Data := v }
      else
        { ExpiresAt := Time.Add now expires, Data := v }
    match w.store.codec.Marshal item with
    | .error err => .ok (w, some err)
    | .ok data =>
      let escapedKey := lib.PathEscape k
      match w.store.prepFileLock escapedKey with
      | .error e => .error e
      | .ok (store, _) =>
        let filePath := store.filePath lib escapedKey
        let r := ioutil.WriteFile w.fs filePath data
        .ok ({ store := store, fs := r.1 }, r.2)

/-- Set stores the given value for the given key. -/
def Set (lib : PathLib) (w : World V) (now : Time) (k : String)
    (v : Option V) : Except String (World V × Option GoError) :=
  SetEx lib w now k v 0

/-- Get retrieves the stored value for the given key. -/
def Get (lib : PathLib) (w : World V) (k : String) (v : Option V) :
    Except String (GetResult V) :=
  match util.CheckKeyAndValue k v with
  | some err => .ok { world := w, found := false, err := some err, out := v }
  | none =>
    let escapedKey := lib.PathEscape k
    match w.store.prepFileLock escapedKey with
    | .error e => .error e
    | .ok (store, _) =>
      let w1 : World V := { store := store, fs := w.fs }
      let filePath := store.filePath lib escapedKey
      match ioutil.ReadFile lib w.fs filePath with
      | .error err =>
        if os.IsNotExist (some err) then
          .ok { world := w1, found := false, err := none, out := v }
        else
          .ok { world := w1, found := false, err := some err, out := v }
      | .ok data =>
        let r := store.codec.Unmarshal data { Data := v }
        match r.1 with
        | some err =>
          .ok { world := w1, found := false, err := some err, out := r.2.Data }
        | none =>
          .ok { world := w1, found := true, err := none, out := r.2.Data }

end file

/-! ## Sequences of calls on the map store -/

namespace gomap

/-- One call on the map store, with the clock readings it takes. -/
inductive Op (V : Type) where
  | Set (now : Time) (k : String) (v : Option V)
  | SetEx (now : Time) (k : String) (v : Option V) (expires : Duration)
  | Get (k : String) (v : Option V)
  | Has (k : String)
  | Delete (k : String)
  | GC (clock : String → Time)

/-- The call is a `Set`, `SetEx` or `Delete` on the key `k`. -/
def Op.writes {V : Type} (k : String) : Op V → Prop
  | .Set _ k1 _ => k1 = k
  | .SetEx _ k1 _ _ => k1 = k
  | .Delete k1 => k1 = k
  | _ => False

/-- The store after one call. -/
def Store.step {V : Type} (s : Store V) : Op V → Store V
  | .Set now k v => (s.Set now k v).1
  | .SetEx now k v expires => (s.SetEx now k v expires).1
  | .Get k v => (s.Get k v).store
  | .Has k => (s.Has k).1
  | .Delete k => (s.Delete k).1
  | .GC clock => s.GC clock

/-- The store after a sequence of calls. -/
def Store.run {V : Type} (s : Store V) (ops : List (Op V)) : Store V :=
  ops.foldl Store.step s

end gomap

/-! ## A sample codec and sample stores -/

/-- A sample codec on natural numbers: `n` is encoded in unary, as `n` bytes
equal to 1; decoding fails on any other byte; `nil` is neither encoded nor
decoded into. -/
def unaryCodec : Codec (Option Nat) where
  Marshal v :=
    match v with
    | some n => .ok (List.replicate n 1)
    | none => .error (errors.New "unary: nil value")
  Unmarshal data target :=
    match target with
    | none => (some (errors.New "unary: nil target"), none)
    | some x =>
      if data.all (fun b => b == 1) then (none, some data.length)
      else (some (errors.New "unary: invalid byte"), some x)

/-- The empty map store with the sample codec. -/
def gomap.emptyStore : gomap.Store Nat :=
  { m := ∅, codec := unaryCodec }

/-- A store of the sample codec whose key "a" holds a payload that the codec
does not decode. -/
def gomap.undecodableStore : gomap.Store Nat :=
  { m := (∅ : GoMap gomap.Item).insert "a" { Data := [0] },
    codec := unaryCodec }

/-- A sample codec for the Items of the file store over natural numbers:
ExpiresAt as that many bytes equal to 0, then the value as that many bytes
equal to 1. -/
def file.itemCodec : Codec (file.Item Nat) where
  Marshal item :=
    .ok (List.replicate item.ExpiresAt.toNat 0 ++
      List.replicate (item.Data.getD 0) 1)
  Unmarshal data _ :=
    (none, { ExpiresAt := (data.count 0 : Nat), Data := some (data.count 1) })

/-- Path functions that return their argument, which is what
`url.PathEscape` does on an alphanumeric key and `filepath.Clean` on a
path that is already clean. -/
def file.plainPaths : PathLib :=
  { PathEscape := fun k => k, Clean := fun p => p }

/-- A new file store on the directory "kvs" with the extension "json" and an
empty file system. -/
def file.emptyWorld : file.World Nat :=
  { store := { fileLocks := some ∅, filenameExtension := "json",
               directory := "kvs", codec := file.itemCodec, allocated := 0 },
    fs := ∅ }

/-! ## syncmap/syncmap.go -/

namespace syncmap

/-- Item identifies a cached piece of data. -/
structure Item where
  ExpiresAt : Time := 0
  Data : Bytes
deriving DecidableEq, Repr

/-- The method `Item.IsExpired`; `now` is what `time.Now()` returns. -/
def Item.IsExpired (i : Item) (now : Time) : Bool :=
  if Time.IsZero i.ExpiresAt then
    false
  else
    Time.After now i.ExpiresAt

/-- The store: the `sync.Map`, whose methods `Store`, `Load` and `Delete`
are each atomic and so, for one caller at a time, those of a map; and the
codec. Every value of the map is an `*Item`. -/
structure Store (V : Type) where
  m : GoMap Item
  codec : Codec (Option V)

/-- What `Get` returns, with the store after the call and what the target
holds after the call. -/
structure GetResult (V : Type) where
  store : Store V
  found : Bool
  err : Option GoError
  out : Option V

variable {V : Type}

/-- SetEx stores the value under the key, expiring after `expires`. -/
def Store.SetEx (s : Store V) (now : Time) (k : String) (v : Option V)
    (expires : Duration) : Store V × Option GoError :=
  match util.CheckKeyAndValue k v with
  | some err => (s, some err)
  | none =>
    match s.codec.Marshal v with
    | .error err => (s, some err)
    | .ok data =>
      let item : Item :=
        if expires = 0 then
          { Data := util.CopyData data }
        else
          { ExpiresAt := Time.Add now expires, Data := util.CopyData data }
      ({ s with m := s.m.insert k item }, none)

/-- Set stores the given value for the given key. -/
def Store.Set (s : Store V) (now : Time) (k : String) (v : Option V) :
    Store V × Option GoError :=
  s.SetEx now k v 0

/-- Get retrieves the stored value for the given key. -/
def Store.Get (s : Store V) (k : String) (v : Option V) : GetResult V :=
  match util.CheckKeyAndValue k v with
  | some err => { store := s, found := false, err := some err, out := v }
  | none =>
    match s.m.lookup k with
    | none => { store := s, found := false, err := none, out := v }
    | some data =>
      let r := s.codec.Unmarshal data.Data v
      { store := s, found := true, err := r.1, out := r.2 }

/-- Has reports whether the store has the key. -/
def Store.Has (s : Store V) (k : String) : Store V × Bool :=
  match util.CheckKey k with
  | some _ => (s, false)
  | none => (s, (s.m.lookup k).isSome)

/-- Delete deletes the stored value for the given key. -/
def Store.Delete (s : Store V) (k : String) : Store V × Option GoError :=
  match util.CheckKey k with
  | some err => (s, some err)
  | none => ({ s with m := s.m.erase k }, none)

/-- The function `GC` hands to `Range`, at the entry `k, v`: the type
assertion `v.(*Item)` holds for every value of the map, the item is deleted
when it is expired, and the traversal goes on. -/
def Store.GC.visit (now : Time) (m : GoMap Item) (k : String) (v : Item) :
    GoMap Item :=
  let ok := true
  if ok && v.IsExpired now then m.erase k else m

/-- GC recycles expired items: `Range` calls the function once for each
entry the map holds, the function deleting from the map as it goes.
`clock k` is the reading of `time.Now()` taken at key `k`. -/
def Store.GC (s : Store V) (clock : String → Time) : Store V :=
  { s with
    m := s.m.entries.foldl
      (fun m e => Store.GC.visit (clock e.1) m e.1 e.2) s.m }

/-- New creates a store with an empty map; the codec is the one of the
options. -/
def New (codec : Codec (Option V)) : Store V :=
  { m := ∅, codec := codec }

end syncmap

/-! ## Calls with their results, on both map stores -/

/-- What one call returns: an error, the results of `Get` with what the
target holds afterwards, the result of `Has`, or nothing (`GC`). -/
inductive Ret (V : Type) where
  | error (err : Option GoError)
  | get (found : Bool) (err : Option GoError) (out : Option V)
  | has (found : Bool)
  | nothing

/-- New creates a store with an empty map; the codec is the one of the
options. -/
def gomap.New {V : Type} (codec : Codec (Option V)) : gomap.Store V :=
  { m := ∅, codec := codec }

/-- One call on the map store: the store after it and what it returns. -/
def gomap.Store.call {V : Type} (s : gomap.Store V) :
    gomap.Op V → gomap.Store V × Ret V
  | .Set now k v => ((s.Set now k v).1, .error (s.Set now k v).2)
  | .SetEx now k v expires =>
    ((s.SetEx now k v expires).1, .error (s.SetEx now k v expires).2)
  | .Get k v =>
    ((s.Get k v).store, .get (s.Get k v).found (s.Get k v).err (s.Get k v).out)
  | .Has k => ((s.Has k).1, .has (s.Has k).2)
  | .Delete k => ((s.Delete k).1, .error (s.Delete k).2)
  | .GC clock => (s.GC clock, .nothing)

/-- One call on the sync.Map store: the store after it and what it returns. -/
def syncmap.Store.call {V : Type} (s : syncmap.Store V) :
    gomap.Op V → syncmap.Store V × Ret V
  | .Set now k v => ((s.Set now k v).1, .error (s.Set now k v).2)
  | .SetEx now k v expires =>
    ((s.SetEx now k v expires).1, .error (s.SetEx now k v expires).2)
  | .Get k v =>
    ((s.Get k v).store, .get (s.Get k v).found (s.Get k v).err (s.Get k v).out)
  | .Has k => ((s.Has k).1, .has (s.Has k).2)
  | .Delete k => ((s.Delete k).1, .error (s.Delete k).2)
  | .GC clock => (s.GC clock, .nothing)

/-- A sequence of calls on the map store: the store after them and what each
returned. -/
def gomap.Store.calls {V : Type} (s : gomap.Store V) :
    List (gomap.Op V) → gomap.Store V × List (Ret V)
  | [] => (s, [])
  | op :: ops =>
    (((s.call op).1.calls ops).1, (s.call op).2 :: ((s.call op).1.calls ops).2)

/-- A sequence of calls on the sync.Map store: the store after them and what
each returned. -/
def syncmap.Store.calls {V : Type} (s : syncmap.Store V) :
    List (gomap.Op V) → syncmap.Store V × List (Ret V)
  | [] => (s, [])
  | op :: ops =>
    (((s.call op).1.calls ops).1, (s.call op).2 :: ((s.call op).1.calls ops).2)

/-- The mapping of the map store as key to (ExpiresAt, Data). -/
def gomap.Store.mapping {V : Type} (s : gomap.Store V) (k : String) :
    Option (Time × Bytes) :=
  (s.m.lookup k).map fun i => (i.ExpiresAt, i.Data)

/-- The mapping of the sync.Map store as key to (ExpiresAt, Data). -/
def syncmap.Store.mapping {V : Type} (s : syncmap.Store V) (k : String) :
    Option (Time × Bytes) :=
  (s.m.lookup k).map fun i => (i.ExpiresAt, i.Data)

/-! ## file/file.go: the other operations -/

namespace file

variable {V : Type}

/-- Has reports whether the store has the key. -/
def Has (lib : PathLib) (w : World V) (k : String) :
    Except String (World V × Bool) :=
  match util.CheckKey k with
  | some _ => .ok (w, false)
  | none =>
    let escapedKey := lib.PathEscape k
    match w.store.prepFileLock escapedKey with
    | .error e => .error e
    | .ok (store, _) =>
      let w1 : World V := { store := store, fs := w.fs }
      let filePath := store.filePath lib escapedKey
      match ioutil.ReadFile lib w.fs filePath with
      | .error _ => .ok (w1, false)
      | .ok _ => .ok (w1, true)

/-- Delete deletes the stored value for the given key. -/
def Delete (lib : PathLib) (w : World V) (k : String) :
    Except String (World V × Option GoError) :=
  match util.CheckKey k with
  | some err => .ok (w, some err)
  | none =>
    let escapedKey := lib.PathEscape k
    match w.store.prepFileLock escapedKey with
    | .error e => .error e
    | .ok (store, _) =>
      let filePath := store.filePath lib escapedKey
      let r := os.Remove lib w.fs filePath
      if os.IsNotExist r.2 then
        .ok ({ store := store, fs := r.1 }, none)
      else
        .ok ({ store := store, fs := r.1 }, r.2)

/-- Close closes the store: the map of locks is set to `nil`. -/
def Close (w : World V) : World V × Option GoError :=
  ({ w with store := { w.store with fileLocks := none } }, none)

/-- What `filepath.Walk` hands to the function at one path: the path, whether
it is a directory, and the error met on the way to it. -/
structure WalkEntry where
  path : String
  isDir : Bool := false
  err : Option GoError := none
deriving DecidableEq, Repr

/-- The function `GC` hands to `filepath.Walk`, at one entry; `now` is what
`time.Now()` returns in `IsExpired`. It returns the world after it and the
error it answers the walk with. -/
def GC.visit (lib : PathLib) (w : World V) (now : Time) (e : WalkEntry) :
    Except String (World V × Option GoError) :=
  match w.store.prepFileLock e.path with
  | .error p => .error p
  | .ok (store, _) =>
    let w1 : World V := { store := store, fs := w.fs }
    match e.err with
    | some err => .ok (w1, some err)
    | none =>
      if e.isDir then
        .ok (w1, none)
      else
        match ioutil.ReadFile lib w.fs e.path with
        | .error err => .ok (w1, some err)
        | .ok data =>
          let r := store.codec.Unmarshal data { Data := none }
          match r.1 with
          | some err => .ok (w1, some err)
          | none =>
            if r.2.IsExpired now then
              let rm := os.Remove lib w.fs e.path
              .ok ({ store := store, fs := rm.1 }, rm.2)
            else
              .ok (w1, none)

/-- The walk of `filepath.Walk` over the entries it reaches, in its order: it
calls the function at each entry and stops at the first error the function
returns. `clock p` is the reading of `time.Now()` taken at the path `p`. -/
def GC.walk (lib : PathLib) (clock : String → Time) :
    World V → List WalkEntry → Except String (World V × Option GoError)
  | w, [] => .ok (w, none)
  | w, e :: es =>
    match GC.visit lib w (clock e.path) e with
    | .error p => .error p
    | .ok (w1, some err) => .ok (w1, some err)
    | .ok (w1, none) => GC.walk lib clock w1 es

/-- GC recycles expired items: it walks the directory and drops the error of
the walk. `entries` is what the walk reaches, in its order. -/
def GC (lib : PathLib) (w : World V) (clock : String → Time)
    (entries : List WalkEntry) : Except String (World V) :=
  match GC.walk lib clock w entries with
  | .error p => .error p
  | .ok (w1, _) => .ok w1

/-- New creates a store: the directory is "kvs" when the option is "", the
extension "json" when the option is `nil`; the map of locks is empty. The
directory is taken to be created without error. -/
def New (directory : String) (filenameExtension : Option String)
    (codec : Codec (Item V)) : Store V :=
  { fileLocks := some ∅,
    filenameExtension :=
      match filenameExtension with
      | some ext => ext
      | none => "json",
    directory := if directory = "" then "kvs" else directory,
    codec := codec,
    allocated := 0 }

/-- One call on the file store, with the clock readings it takes and, for
`GC`, the entries its walk reaches. -/
inductive Op (V : Type) where
  | Set (now : Time) (k : String) (v : Option V)
  | SetEx (now : Time) (k : String) (v : Option V) (expires : Duration)
  | Get (k : String) (v : Option V)
  | Has (k : String)
  | Delete (k : String)
  | GC (clock : String → Time) (entries : List WalkEntry)
  | Close

/-- The world after one call, or the run-time error the call stops with. -/
def step (lib : PathLib) (w : World V) : Op V → Except String (World V)
  | .Set now k v =>
    match Set lib w now k v with
    | .error p => .error p
    | .ok r => .ok r.1
  | .SetEx now k v expires =>
    match SetEx lib w now k v expires with
    | .error p => .error p
    | .ok r => .ok r.1
  | .Get k v =>
    match Get lib w k v with
    | .error p => .error p
    | .ok r => .ok r.world
  | .Has k =>
    match Has lib w k with
    | .error p => .error p
    | .ok r => .ok r.1
  | .Delete k =>
    match Delete lib w k with
    | .error p => .error p
    | .ok r => .ok r.1
  | .GC clock entries => GC lib w clock entries
  | .Close => .ok (Close w).1

end file

/-- The sample path functions on a system where no path can be read: every
read that does not find a regular file fails because the path is a
directory. -/
def file.unreadablePaths : PathLib :=
  { PathEscape := fun k => k, Clean := fun p => p,
    readError := fun path =>
      { text := "read " ++ path ++ ": is a directory" } }

/-- The key is registered in the map of locks, with the lock object `lock`. -/
def file.Store.registered {V : Type} (s : file.Store V) (key : String)
    (lock : Nat) : Prop :=
  ∃ locks, s.fileLocks = some locks ∧ locks.lookup key = some lock

/-- The registry of a store that is not closed is sound: every registered
lock is one of the lock objects created so far, and no lock object is
registered under two keys. -/
def file.Store.sound {V : Type} (s : file.Store V) : Prop :=
  ∃ locks, s.fileLocks = some locks ∧
    (∀ k l, locks.lookup k = some l → l < s.allocated) ∧
    (∀ k1 k2 l, locks.lookup k1 = some l → locks.lookup k2 = some l → k1 = k2)

/-- The world after a sequence of calls on the file store, or the run-time
error the first failing call stops with. -/
def file.run {V : Type} (lib : PathLib) :
    file.World V → List (file.Op V) → Except String (file.World V)
  | w, [] => .ok w
  | w, op :: ops =>
    match file.step lib w op with
    | .error p => .error p
    | .ok w1 => file.run lib w1 ops

/-- The file at `path` holds an Item that `GC` decodes and finds expired at
the time `now`. -/
def file.World.expired {V : Type} (w : file.World V) (now : Time)
    (path : String) : Bool :=
  match w.fs.lookup path with
  | some data =>
    (w.store.codec.Unmarshal data { Data := none }).2.IsExpired now
  | none => false

/-- The entry of the walk at a regular file reached without error. -/
def file.fileEntry (path : String) : file.WalkEntry :=
  { path := path, isDir := false, err := none }

/-- The sample codec for Items, refusing to decode a payload that holds a
byte other than 0 and 1. -/
def file.strictItemCodec : Codec (file.Item Nat) where
  Marshal item :=
    .ok (List.replicate item.ExpiresAt.toNat 0 ++
      List.replicate (item.Data.getD 0) 1)
  Unmarshal data target :=
    if data.all (fun b => b == 0 || b == 1) then
      (none, { ExpiresAt := (data.count 0 : Nat), Data := some (data.count 1) })
    else
      (some (errors.New "item: invalid byte"), target)

/-- A store on "kvs" with three files: "a" and "c" hold Items that expire at
the times 2 and 1, "b" holds a payload that is not decoded. -/
def file.sweepWorld : file.World Nat :=
  { store := { fileLocks := some ∅, filenameExtension := "json",
               directory := "kvs", codec := file.strictItemCodec,
               allocated := 0 },
    fs := (((∅ : FS).insert "kvs/c.json" [0, 1]).insert "kvs/b.json" [7]).insert
      "kvs/a.json" [0, 0, 1] }

/-! ## The standard library: url.PathEscape and filepath.Clean

Both are functions of the Go standard library, written here after their
documented behaviour on a system whose separator is the slash. A Go string
is the sequence of the bytes of its UTF-8 form. -/

namespace url

/-- The table "0123456789ABCDEF" at the index `n`. -/
def upperhex (n : Nat) : Char :=
  ['0', '1', '2', '3', '4', '5', '6', '7', '8', '9', 'A', 'B', 'C', 'D',
    'E', 'F'].getD n '0'

/-- The function `shouldEscape` in the mode of a path segment, on the byte
`c`: letters, digits and the marks - _ . ~ are kept; of the reserved
characters $ & + , / : ; = ? @ only / ; , ? are escaped; every other byte is
escaped. -/
def shouldEscape (c : Nat) : Bool :=
  if ('a'.toNat ≤ c ∧ c ≤ 'z'.toNat) ∨ ('A'.toNat ≤ c ∧ c ≤ 'Z'.toNat) ∨
      ('0'.toNat ≤ c ∧ c ≤ '9'.toNat) then
    false
  else if c = '-'.toNat ∨ c = '_'.toNat ∨ c = '.'.toNat ∨ c = '~'.toNat then
    false
  else if c = '$'.toNat ∨ c = '&'.toNat ∨ c = '+'.toNat ∨ c = ','.toNat ∨
      c = '/'.toNat ∨ c = ':'.toNat ∨ c = ';'.toNat ∨ c = '='.toNat ∨
      c = '?'.toNat ∨ c = '@'.toNat then
    decide (c = '/'.toNat ∨ c = ';'.toNat ∨ c = ','.toNat ∨ c = '?'.toNat)
  else
    true

/-- What `escape` writes for the byte `c`: the percent sign and two
hexadecimal digits when the byte is escaped, the byte itself otherwise. -/
def escapeByte (c : Nat) : List Char :=
  if shouldEscape c then
    ['%', upperhex (c / 16), upperhex (c % 16)]
  else
    [Char.ofNat c]

/-- The bytes of a Go string. -/
def bytes (s : String) : List Nat :=
  (s.data.flatMap String.utf8EncodeChar).map UInt8.toNat

/-- The function `url.PathEscape`: the string with every byte that is not
allowed in a path segment replaced by its percent escape. -/
def PathEscape (s : String) : String :=
  String.mk ((bytes s).flatMap escapeByte)

end url

namespace filepath

/-- The path elements between the separators. -/
def splitSlash : List Char → List (List Char)
  | [] => [[]]
  | c :: cs =>
    if c = '/' then
      [] :: splitSlash cs
    else
      match splitSlash cs with
      | [] => [[c]]
      | x :: xs => (c :: x) :: xs

/-- The elements written with a separator between them. -/
def joinSlash : List (List Char) → List Char
  | [] => []
  | [x] => x
  | x :: y :: rest => x ++ '/' :: joinSlash (y :: rest)

/-- One step of `Clean`, at the path element `elem`, with `out` the elements
written so far: an empty element and a `.` element are dropped; a `..`
element removes the element before it, unless there is none or it is a
`..` itself, in which case the `..` is dropped at the start of a rooted
path and written otherwise; any other element is written. -/
def Clean.step (rooted : Bool) (out : List (List Char)) (elem : List Char) :
    List (List Char) :=
  if elem = [] then
    out
  else if elem = ['.'] then
    out
  else if elem = ['.', '.'] then
    match out.getLast? with
    | some last =>
      if last = ['.', '.'] then out ++ [elem] else out.dropLast
    | none =>
      if rooted then out else out ++ [elem]
  else
    out ++ [elem]

/-- The function `filepath.Clean`: the shortest path name equivalent to
`path` by purely lexical processing; "." for the empty path and when
nothing is left of a path that is not rooted. -/
def Clean (path : String) : String :=
  if path = "" then
    "."
  else
    let rooted := decide (path.data.head? = some '/')
    let out := (splitSlash path.data).foldl (Clean.step rooted) []
    if out = [] then
      if rooted then "/" else "."
    else
      String.mk ((if rooted then ['/'] else []) ++ joinSlash out)

end filepath

/-- The path functions of the Go standard library, with the errors of a
system on which every path that is not a regular file is missing. -/
def goPaths : PathLib :=
  { PathEscape := url.PathEscape, Clean := filepath.Clean }

/-- The string names a file: it is one path element, that is not empty, holds
no separator, and is neither "." nor "..". -/
def filepath.isFileName (name : String) : Prop :=
  name ≠ "" ∧ name ≠ "." ∧ name ≠ ".." ∧ '/' ∉ name.data

/-- The path of the entry `name` directly inside the directory whose clean
path is `dir`: `dir`, a separator unless `dir` is the root, and `name`;
a path inside the current directory "." is written without it. -/
def filepath.inDir (dir name : String) : String :=
  if dir = "/" then "/" ++ name
  else if dir = "." then name
  else dir ++ "/" ++ name

/-- The UTF-8 form of the code point `n`, in arithmetic: one byte up to
0x7f, two up to 0x7ff, three up to 0xffff, four above. -/
def url.utf8Bytes (n : Nat) : List Nat :=
  if n ≤ 0x7f then
    [n]
  else if n ≤ 0x7ff then
    [192 + n / 64 % 32, 128 + n % 64]
  else if n ≤ 0xffff then
    [224 + n / 4096 % 16, 128 + n / 64 % 64, 128 + n % 64]
  else
    [240 + n / 262144 % 8, 128 + n / 4096 % 64, 128 + n / 64 % 64,
      128 + n % 64]

/-- The name of the file of a key whose escaped form is `escapedKey`: the
variable `filename` of `SetEx`, `Get`, `Has` and `Delete`. -/
def file.Store.fileName {V : Type} (s : file.Store V) (escapedKey : String) :
    String :=
  if s.filenameExtension ≠ "" then
    escapedKey ++ "." ++ s.filenameExtension
  else
    escapedKey

/-- The results of `Get` as the caller sees them: found, err and what the
target holds. -/
def file.GetResult.answer {V : Type} (r : file.GetResult V) :
    Bool × Option GoError × Option V :=
  (r.found, r.err, r.out)

/-- A new store on the default directory "kvs" and extension "json" with the
sample codec, and an empty file system. -/
def file.defaultWorld : file.World Nat :=
  { store := file.New "" none file.itemCodec, fs := ∅ }

/-- A new store on "kvs" whose extension is set to "/../x", and an empty
file system. -/
def file.oddExtensionWorld : file.World Nat :=
  { store := file.New "kvs" (some "/../x") file.itemCodec, fs := ∅ }

/-! ## Lemmas on the validators and on byte copying -/

namespace util

theorem CheckKey_empty : CheckKey "" =
    some (errors.New "The passed key is an empty string, which is invalid") := by
  simp [CheckKey]

theorem CheckKey_ne {k : String} (hk : k ≠ "") : CheckKey k = none := by
  simp [CheckKey, hk]

theorem CheckKeyAndValue_some {V : Type} {k : String} (hk : k ≠ "") (v : V) :
    CheckKeyAndValue k (some v) = none := by
  simp [CheckKeyAndValue, CheckKey, CheckVal, hk]

theorem CopyData_eq (data : Bytes) : CopyData data = data := by
  simp [CopyData, copy, make]

end util

/-! ## Lemmas on the sweep of the map store -/

namespace gomap

theorem GC_fold_lookup (clock : String → Time) (k : String) :
    ∀ (l : List (Sigma fun _ : String => Item)) (acc : GoMap Item),
      (l.foldl (fun m e => Store.GC.visit (clock e.1) m e.1 e.2) acc).lookup k =
        if (∃ e ∈ l, e.1 = k ∧ e.2.IsExpired (clock k) = true) then none
        else acc.lookup k := by
  intro l
  induction l with
  | nil => intro acc; simp
  | cons e l ih =>
    intro acc
    rw [List.foldl_cons, ih]
    by_cases hl : ∃ e' ∈ l, e'.1 = k ∧ e'.2.IsExpired (clock k) = true
    · have : ∃ e' ∈ e :: l, e'.1 = k ∧ e'.2.IsExpired (clock k) = true := by
        obtain ⟨e', he', h⟩ := hl
        exact ⟨e', List.mem_cons_of_mem _ he', h⟩
      rw [if_pos hl, if_pos this]
    · rw [if_neg hl]
      by_cases he : e.1 = k ∧ e.2.IsExpired (clock k) = true
      · have : ∃ e' ∈ e :: l, e'.1 = k ∧ e'.2.IsExpired (clock k) = true :=
          ⟨e, List.mem_cons_self _ _, he⟩
        rw [if_pos this]
        obtain ⟨h1, h2⟩ := he
        subst h1
        simp [Store.GC.visit, h2]
      · have : ¬ ∃ e' ∈ e :: l, e'.1 = k ∧ e'.2.IsExpired (clock k) = true := by
          rintro ⟨e', he', h⟩
          rcases List.mem_cons.1 he' with rfl | h'
          · exact he h
          · exact hl ⟨e', h', h⟩
        rw [if_neg this]
        unfold Store.GC.visit
        by_cases hx : e.2.IsExpired (clock e.1) = true
        · rw [if_pos hx]
          have hne : k ≠ e.1 := by
            intro hk
            apply he
            exact ⟨hk.symm, by rw [hk]; exact hx⟩
          exact AList.lookup_erase_ne hne
        · rw [if_neg hx]

/-- After a sweep a key holds what it held before, unless that Item is expired
at the clock reading of its visit, in which case the key is gone. -/
theorem GC_lookup {V : Type} (s : Store V) (clock : String → Time) (k : String) :
    (s.GC clock).m.lookup k =
      (s.m.lookup k).filter (fun i => !i.IsExpired (clock k)) := by
  unfold Store.GC
  simp only
  rw [GC_fold_lookup]
  cases h : s.m.lookup k with
  | none =>
    simp only [Option.filter]
    split_ifs <;> rfl
  | some i =>
    have hmem : (⟨k, i⟩ : Sigma fun _ : String => Item) ∈ s.m.entries :=
      AList.mem_lookup_iff.1 h
    by_cases hx : i.IsExpired (clock k) = true
    · have : ∃ e ∈ s.m.entries, e.1 = k ∧ e.2.IsExpired (clock k) = true :=
        ⟨⟨k, i⟩, hmem, rfl, hx⟩
      rw [if_pos this]
      simp [Option.filter, hx]
    · have : ¬ ∃ e ∈ s.m.entries, e.1 = k ∧ e.2.IsExpired (clock k) = true := by
        rintro ⟨⟨k', i'⟩, he, hk, hexp⟩
        simp only at hk
        subst hk
        have h' : s.m.lookup k' = some i' := AList.mem_lookup_iff.2 he
        rw [h] at h'
        cases h'
        exact hx hexp
      rw [if_neg this]
      simp [Option.filter, hx]

theorem GC_codec {V : Type} (s : Store V) (clock : String → Time) :
    (s.GC clock).codec = s.codec := rfl

end gomap

/-! ## The map store: round trip and validation -/

namespace gomap

/-- C1: in the map store, for a key other than "" and a non-nil value `v`
that the codec encodes (to `data`) and decodes back into the target, from
every prior state `Set(k, v)` returns no error and the `Get(k, &out)` right
after it returns found = true and err = nil with the target holding `v`. -/
theorem C1_gomap_set_get_roundtrip {V : Type} (s : Store V) (now : Time)
    (k : String) (v out : V) (data : Bytes) (hk : k ≠ "")
    (henc : s.codec.Marshal (some v) = .ok data)
    (hdec : s.codec.Unmarshal data (some out) = (none, some v)) :
    (s.Set now k (some v)).2 = none ∧
    ((s.Set now k (some v)).1.Get k (some out)).found = true ∧
    ((s.Set now k (some v)).1.Get k (some out)).err = none ∧
    ((s.Set now k (some v)).1.Get k (some out)).out = some v := by
  have hset : s.Set now k (some v) =
      ({ s with m := s.m.insert k { Data := data } }, none) := by
    simp [Store.Set, Store.SetEx, util.CheckKeyAndValue_some hk, henc,
      util.CopyData_eq]
  rw [hset]
  simp [Store.Get, util.CheckKeyAndValue_some hk, AList.lookup_insert, hdec]

/-- C1 at the empty store with the unary codec: `Set("a", 1)` then
`Get("a", &x)`. -/
theorem C1_gomap_set_get_roundtrip_witness :
    (emptyStore.Set 7 "a" (some 1)).2 = none ∧
    ((emptyStore.Set 7 "a" (some 1)).1.Get "a" (some 0)).found = true ∧
    ((emptyStore.Set 7 "a" (some 1)).1.Get "a" (some 0)).err = none ∧
    ((emptyStore.Set 7 "a" (some 1)).1.Get "a" (some 0)).out = some 1 :=
  C1_gomap_set_get_roundtrip emptyStore 7 "a" 1 0 [1] (by decide) rfl rfl

/-- C3: in the map store, from every state: with the key "" the calls `Set`,
`SetEx`, `Get` and `Delete` return the invalid-key error and `Has` returns
false, whatever the value (nil included, so the key is checked first); with
a key other than "" and a nil value or target, `Set`, `SetEx` and `Get`
return the invalid-value error; in each of these cases the store is left
exactly as it was. -/
theorem C3_gomap_validation {V : Type} (s : Store V) (now : Time)
    (k : String) (v : Option V) (expires : Duration) :
    (s.Set now "" v =
        (s, some (errors.New "The passed key is an empty string, which is invalid")) ∧
      s.SetEx now "" v expires =
        (s, some (errors.New "The passed key is an empty string, which is invalid")) ∧
      s.Get "" v =
        { store := s, found := false,
          err := some (errors.New "The passed key is an empty string, which is invalid"),
          out := v } ∧
      s.Delete "" =
        (s, some (errors.New "The passed key is an empty string, which is invalid")) ∧
      s.Has "" = (s, false)) ∧
    (k ≠ "" →
      s.Set now k none =
        (s, some (errors.New "The passed value is nil, which is not allowed")) ∧
      s.SetEx now k none expires =
        (s, some (errors.New "The passed value is nil, which is not allowed")) ∧
      s.Get k none =
        { store := s, found := false,
          err := some (errors.New "The passed value is nil, which is not allowed"),
          out := none }) := by
  refine ⟨?_, ?_⟩
  · simp [Store.Set, Store.SetEx, Store.Get, Store.Delete, Store.Has,
      util.CheckKeyAndValue, util.CheckKey]
  · intro hk
    simp [Store.Set, Store.SetEx, Store.Get, util.CheckKeyAndValue,
      util.CheckKey, util.CheckVal, hk]

/-- C3 at a store holding "a": the invalid-value error of `SetEx("a", nil)`
and of `Get("a", nil)`, with the store unchanged. -/
theorem C3_gomap_validation_witness :
    (emptyStore.Set 7 "a" (some 1)).1.Set 9 "a" none =
        ((emptyStore.Set 7 "a" (some 1)).1,
          some (errors.New "The passed value is nil, which is not allowed")) ∧
      (emptyStore.Set 7 "a" (some 1)).1.SetEx 9 "a" none Second =
        ((emptyStore.Set 7 "a" (some 1)).1,
          some (errors.New "The passed value is nil, which is not allowed")) ∧
      (emptyStore.Set 7 "a" (some 1)).1.Get "a" none =
        { store := (emptyStore.Set 7 "a" (some 1)).1, found := false,
          err := some (errors.New "The passed value is nil, which is not allowed"),
          out := none } :=
  (C3_gomap_validation (emptyStore.Set 7 "a" (some 1)).1 9 "a" none Second).2
    (by decide)

end gomap

/-! ## The map store: what a sequence of calls does to one key -/

namespace gomap

theorem step_codec {V : Type} (s : Store V) (op : Op V) :
    (s.step op).codec = s.codec := by
  cases op <;> simp only [Store.step, Store.Set, Store.SetEx, Store.Get,
    Store.Has, Store.Delete, Store.GC]
  all_goals (repeat (first | rfl | split))

theorem run_codec {V : Type} (ops : List (Op V)) :
    ∀ s : Store V, (s.run ops).codec = s.codec := by
  induction ops with
  | nil => intro s; rfl
  | cons op ops ih =>
    intro s
    simp only [Store.run, List.foldl_cons] at ih ⊢
    rw [ih, step_codec]

theorem SetEx_lookup_ne {V : Type} (s : Store V) (now : Time) (k1 k : String)
    (v : Option V) (expires : Duration) (h : k1 ≠ k) :
    (s.SetEx now k1 v expires).1.m.lookup k = s.m.lookup k := by
  unfold Store.SetEx
  split
  · rfl
  · split
    · rfl
    · exact AList.lookup_insert_ne (Ne.symm h)

/-- A call that is not a `Set`, `SetEx` or `Delete` on `k` leaves what `k`
holds as it is, except that a sweep drops it when it is expired. -/
theorem step_lookup {V : Type} (s : Store V) (op : Op V) (k : String)
    (hw : ¬ op.writes k) :
    (s.step op).m.lookup k =
      match op with
      | .GC clock => (s.m.lookup k).filter (fun i => !i.IsExpired (clock k))
      | _ => s.m.lookup k := by
  cases op with
  | Set now k1 v =>
    exact SetEx_lookup_ne s now k1 k v 0 hw
  | SetEx now k1 v expires =>
    exact SetEx_lookup_ne s now k1 k v expires hw
  | Get k1 v =>
    simp only [Store.step, Store.Get]
    repeat (first | rfl | split)
  | Has k1 =>
    simp only [Store.step, Store.Has]
    repeat (first | rfl | split)
  | Delete k1 =>
    have h : k1 ≠ k := hw
    simp only [Store.step, Store.Delete]
    split
    · rfl
    · exact AList.lookup_erase_ne (Ne.symm h)
  | GC clock =>
    exact GC_lookup s clock k

/-- An entry survives a sequence of calls none of which writes its key and
whose sweeps all visit it when it is not expired. -/
theorem run_lookup_some {V : Type} (k : String) (i : Item) (ops : List (Op V)) :
    ∀ s : Store V, s.m.lookup k = some i →
      (∀ op ∈ ops, ¬ op.writes k) →
      (∀ clock, Op.GC clock ∈ ops → i.IsExpired (clock k) = false) →
      (s.run ops).m.lookup k = some i := by
  induction ops with
  | nil => intro s h _ _; exact h
  | cons op ops ih =>
    intro s h hw hgc
    simp only [Store.run, List.foldl_cons] at ih ⊢
    apply ih
    · rw [step_lookup s op k (hw op (List.mem_cons_self _ _))]
      cases op with
      | GC clock =>
        have := hgc clock (List.mem_cons_self _ _)
        simp [h, Option.filter, this]
      | _ => exact h
    · intro op1 h1
      exact hw op1 (List.mem_cons_of_mem _ h1)
    · intro clock h1
      exact hgc clock (List.mem_cons_of_mem _ h1)

/-- An absent key stays absent through a sequence of calls none of which
writes it. -/
theorem run_lookup_none {V : Type} (k : String) (ops : List (Op V)) :
    ∀ s : Store V, s.m.lookup k = none →
      (∀ op ∈ ops, ¬ op.writes k) →
      (s.run ops).m.lookup k = none := by
  induction ops with
  | nil => intro s h _; exact h
  | cons op ops ih =>
    intro s h hw
    simp only [Store.run, List.foldl_cons] at ih ⊢
    apply ih
    · rw [step_lookup s op k (hw op (List.mem_cons_self _ _))]
      cases op with
      | GC clock => simp [h, Option.filter]
      | _ => exact h
    · intro op1 h1
      exact hw op1 (List.mem_cons_of_mem _ h1)

theorem run_append {V : Type} (s : Store V) (ops1 ops2 : List (Op V)) :
    s.run (ops1 ++ ops2) = (s.run ops1).run ops2 := by
  simp [Store.run, List.foldl_append]

theorem run_cons {V : Type} (s : Store V) (op : Op V) (ops : List (Op V)) :
    s.run (op :: ops) = (s.step op).run ops := rfl

/-- The entry `SetEx` leaves under the key when the value is encoded. -/
theorem SetEx_ok {V : Type} (s : Store V) (now : Time) (k : String) (v : V)
    (expires : Duration) (data : Bytes) (hk : k ≠ "")
    (henc : s.codec.Marshal (some v) = .ok data) :
    s.SetEx now k (some v) expires =
      ({ m := s.m.insert k ⟨if expires = 0 then 0 else now + expires, data⟩,
         codec := s.codec }, none) := by
  unfold Store.SetEx
  rw [util.CheckKeyAndValue_some hk]
  simp only [henc, util.CopyData_eq, Time.Add]
  split_ifs <;> rfl

theorem Get_of_lookup_some {V : Type} (s : Store V) (k : String) (out : V)
    (i : Item) (hk : k ≠ "") (h : s.m.lookup k = some i) :
    s.Get k (some out) =
      { store := s, found := true,
        err := (s.codec.Unmarshal i.Data (some out)).1,
        out := (s.codec.Unmarshal i.Data (some out)).2 } := by
  simp [Store.Get, util.CheckKeyAndValue_some hk, h]

theorem Get_of_lookup_none {V : Type} (s : Store V) (k : String) (out : V)
    (hk : k ≠ "") (h : s.m.lookup k = none) :
    s.Get k (some out) =
      { store := s, found := false, err := none, out := some out } := by
  simp [Store.Get, util.CheckKeyAndValue_some hk, h]

end gomap

/-! ## The map store: expiry and the sweep -/

namespace gomap

theorem IsExpired_iff (i : Item) (now : Time) :
    i.IsExpired now = true ↔ i.ExpiresAt ≠ 0 ∧ i.ExpiresAt < now := by
  unfold Item.IsExpired Time.IsZero Time.After
  by_cases h : i.ExpiresAt = 0 <;> simp [h]

theorem IsExpired_eq_false_iff (i : Item) (now : Time) :
    i.IsExpired now = false ↔ i.ExpiresAt = 0 ∨ ¬ i.ExpiresAt < now := by
  rw [← Bool.not_eq_true, IsExpired_iff]
  tauto

/-- C4: in the map store, after `SetEx(k, v, ttl)` at time `t`, with a key
other than "", an encodable non-nil `v` and `ttl > 0` (the clock never reads
before the zero instant), and no later `Set`, `SetEx` or `Delete` on `k`:
a `Get(k, &out)` at a time `u` up to and including `t + ttl` returns
found = true whatever sweeps have visited `k` up to `u`; and a `Get(k, &out)`
issued after a sweep that visited `k` at a time after `t + ttl` returns
found = false and err = nil. -/
theorem C4_gomap_setex_ttl {V : Type} (s : Store V) (t : Time) (k : String)
    (v : V) (ttl : Duration) (data : Bytes) (hk : k ≠ "")
    (henc : s.codec.Marshal (some v) = .ok data) (httl : 0 < ttl)
    (ht : 0 ≤ t) :
    (∀ (u : Time) (ops : List (Op V)) (out : V), u ≤ t + ttl →
      (∀ op ∈ ops, ¬ op.writes k) →
      (∀ clock, Op.GC clock ∈ ops → clock k ≤ u) →
      (((s.SetEx t k (some v) ttl).1.run ops).Get k (some out)).found = true) ∧
    (∀ (ops1 ops2 : List (Op V)) (clock : String → Time) (out : V),
      (∀ op ∈ ops1 ++ ops2, ¬ op.writes k) →
      t + ttl < clock k →
      (((s.SetEx t k (some v) ttl).1.run
          (ops1 ++ Op.GC clock :: ops2)).Get k (some out)).found = false ∧
      (((s.SetEx t k (some v) ttl).1.run
          (ops1 ++ Op.GC clock :: ops2)).Get k (some out)).err = none) := by
  have hne : ttl ≠ 0 := ne_of_gt httl
  have hset := SetEx_ok s t k v ttl data hk henc
  rw [if_neg hne] at hset
  have hlook : (s.SetEx t k (some v) ttl).1.m.lookup k = some ⟨t + ttl, data⟩ := by
    rw [hset]
    exact AList.lookup_insert _
  refine ⟨?_, ?_⟩
  · intro u ops out hu hw hgc
    have h := run_lookup_some k ⟨t + ttl, data⟩ ops _ hlook hw (by
      intro clock hc
      rw [IsExpired_eq_false_iff]
      right
      simp only [not_lt]
      exact le_trans (hgc clock hc) hu)
    rw [Get_of_lookup_some _ k out _ hk h]
  · intro ops1 ops2 clock out hw hlate
    have hgone : ((s.SetEx t k (some v) ttl).1.run
        (ops1 ++ Op.GC clock :: ops2)).m.lookup k = none := by
      rw [run_append, run_cons]
      apply run_lookup_none
      · rw [step_lookup _ _ _ (by simp [Op.writes])]
        simp only
        cases hl : ((s.SetEx t k (some v) ttl).1.run ops1).m.lookup k with
        | none => rfl
        | some i =>
          have hi : i = ⟨t + ttl, data⟩ := by
            by_contra hcon
            -- the key can only hold what `SetEx` stored
            have : ∀ (ops : List (Op V)) (s0 : Store V),
                s0.m.lookup k = some ⟨t + ttl, data⟩ →
                (∀ op ∈ ops, ¬ op.writes k) →
                (s0.run ops).m.lookup k = none ∨
                (s0.run ops).m.lookup k = some ⟨t + ttl, data⟩ := by
              intro ops
              induction ops with
              | nil => intro s0 h0 _; exact Or.inr h0
              | cons op ops ih =>
                intro s0 h0 hw0
                rw [run_cons]
                have hstep := step_lookup s0 op k (hw0 op (List.mem_cons_self _ _))
                have hrest : ∀ op1 ∈ ops, ¬ op1.writes k :=
                  fun op1 h1 => hw0 op1 (List.mem_cons_of_mem _ h1)
                have hcase : (s0.step op).m.lookup k = none ∨
                    (s0.step op).m.lookup k = some ⟨t + ttl, data⟩ := by
                  rw [hstep]
                  cases op with
                  | GC clock1 =>
                    simp only [h0, Option.filter]
                    split_ifs
                    · exact Or.inr rfl
                    · exact Or.inl rfl
                  | _ => exact Or.inr h0
                rcases hcase with hc | hc
                · exact Or.inl (run_lookup_none k ops _ hc hrest)
                · exact ih _ hc hrest
            rcases this ops1 _ hlook
              (fun op h1 => hw op (List.mem_append_left _ h1)) with h1 | h1
            · rw [hl] at h1; cases h1
            · rw [hl] at h1
              exact hcon (Option.some.inj h1)
          subst hi
          have hexp : (⟨t + ttl, data⟩ : Item).IsExpired (clock k) = true := by
            rw [IsExpired_iff]
            constructor
            · exact ne_of_gt (add_pos_of_nonneg_of_pos ht httl)
            · exact hlate
          simp [Option.filter, hexp]
      · intro op h1
        exact hw op (List.mem_append_right _ h1)
    rw [Get_of_lookup_none _ k out hk hgone]
    exact ⟨rfl, rfl⟩

/-- C4 at the empty store with the unary codec: `SetEx("a", 1, 5)` at time
100; found at time 103 after a sweep at 102; not found after a sweep at 106. -/
theorem C4_gomap_setex_ttl_witness :
    (((emptyStore.SetEx 100 "a" (some 1) 5).1.run
        [Op.GC (fun _ => 102), Op.Has "a"]).Get "a" (some 0)).found = true ∧
    ((((emptyStore.SetEx 100 "a" (some 1) 5).1.run
        ([] ++ Op.GC (fun _ => 106) :: [])).Get "a" (some 0)).found = false ∧
     (((emptyStore.SetEx 100 "a" (some 1) 5).1.run
        ([] ++ Op.GC (fun _ => 106) :: [])).Get "a" (some 0)).err = none) :=
  ⟨(C4_gomap_setex_ttl emptyStore 100 "a" 1 5 [1] (by decide) rfl
      (by decide) (by decide)).1 103 [Op.GC (fun _ => 102), Op.Has "a"] 0
      (by decide) (by simp [Op.writes]) (by simp),
   (C4_gomap_setex_ttl emptyStore 100 "a" 1 5 [1] (by decide) rfl
      (by decide) (by decide)).2 [] [] (fun _ => 106) 0
      (by simp) (by decide)⟩

end gomap

namespace gomap

/-- C5, the claim as stated fails: at the empty store with the unary codec,
after `SetEx("b", 2, 1s)` at time 100 s, a `Get("b", &y)` with no sweep in
between does not return found = false: `Get` never reads the clock, so at
102 s as at any other time it returns found = true, err = nil and y = 2. -/
theorem C5_gomap_get_ignores_expiry_counterexample :
    ((emptyStore.SetEx (100 * Second) "b" (some 2) Second).1.Get "b"
        (some 0)).found = true ∧
    ((emptyStore.SetEx (100 * Second) "b" (some 2) Second).1.Get "b"
        (some 0)).err = none ∧
    ((emptyStore.SetEx (100 * Second) "b" (some 2) Second).1.Get "b"
        (some 0)).out = some 2 ∧
    ¬ (((emptyStore.SetEx (100 * Second) "b" (some 2) Second).1.Get "b"
          (some 0)).found = false ∧
       ((emptyStore.SetEx (100 * Second) "b" (some 2) Second).1.Get "b"
          (some 0)).err = none) := by
  have hset := SetEx_ok emptyStore (100 * Second) "b" 2 Second [1, 1]
    (by decide) rfl
  have hget := Get_of_lookup_some (emptyStore.SetEx (100 * Second) "b" (some 2) Second).1
    "b" 0 ⟨if Second = 0 then 0 else 100 * Second + Second, [1, 1]⟩ (by decide)
    (by rw [hset]; exact AList.lookup_insert _)
  rw [hget, hset]
  refine ⟨rfl, rfl, rfl, ?_⟩
  rintro ⟨h, _⟩
  cases h

/-- C5 as amended: in the map store, `Get` does not observe expiry by
itself: after `SetEx(k, v, 1s)` at time `t`, with a key other than "" and a
non-nil `v` the codec encodes and decodes back, a `Get(k, &y)` issued at
any later time, with no sweep and no `Set`, `SetEx` or `Delete` on `k` in
between, returns found = true and err = nil with y = `v`. -/
theorem C5_gomap_get_without_sweep {V : Type} (s : Store V) (t : Time)
    (k : String) (v y : V) (data : Bytes) (ops : List (Op V)) (hk : k ≠ "")
    (henc : s.codec.Marshal (some v) = .ok data)
    (hdec : s.codec.Unmarshal data (some y) = (none, some v))
    (hw : ∀ op ∈ ops, ¬ op.writes k)
    (hgc : ∀ clock, Op.GC clock ∉ ops) :
    (((s.SetEx t k (some v) Second).1.run ops).Get k (some y)).found = true ∧
    (((s.SetEx t k (some v) Second).1.run ops).Get k (some y)).err = none ∧
    (((s.SetEx t k (some v) Second).1.run ops).Get k (some y)).out = some v := by
  have hset := SetEx_ok s t k v Second data hk henc
  have hlook : (s.SetEx t k (some v) Second).1.m.lookup k =
      some ⟨if Second = 0 then 0 else t + Second, data⟩ := by
    rw [hset]
    exact AList.lookup_insert _
  have h := run_lookup_some k _ ops _ hlook hw
    (fun clock hc => absurd hc (hgc clock))
  have hcodec : ((s.SetEx t k (some v) Second).1.run ops).codec = s.codec := by
    rw [run_codec, hset]
  rw [Get_of_lookup_some _ k y _ hk h, hcodec]
  simp [hdec]

/-- C5 as amended, at the empty store with the unary codec: `SetEx("b", 2,
1s)`, then `Has("b")` and a `Set` on another key, then `Get("b", &y)`. -/
theorem C5_gomap_get_without_sweep_witness :
    (((emptyStore.SetEx (100 * Second) "b" (some 2) Second).1.run
        [Op.Has "b", Op.Set (101 * Second) "a" (some 1)]).Get "b"
        (some 0)).found = true ∧
    (((emptyStore.SetEx (100 * Second) "b" (some 2) Second).1.run
        [Op.Has "b", Op.Set (101 * Second) "a" (some 1)]).Get "b"
        (some 0)).err = none ∧
    (((emptyStore.SetEx (100 * Second) "b" (some 2) Second).1.run
        [Op.Has "b", Op.Set (101 * Second) "a" (some 1)]).Get "b"
        (some 0)).out = some 2 :=
  C5_gomap_get_without_sweep emptyStore (100 * Second) "b" 2 0 [1, 1]
    [Op.Has "b", Op.Set (101 * Second) "a" (some 1)] (by decide) rfl rfl
    (by simp [Op.writes]) (by simp)

/-- The store after a sequence of sweeps, one clock for each. -/
theorem sweeps_lookup_zero {V : Type} (k : String) (i : Item)
    (h0 : i.ExpiresAt = 0) (clocks : List (String → Time)) :
    ∀ s : Store V, s.m.lookup k = some i →
      (clocks.foldl Store.GC s).m.lookup k = some i := by
  induction clocks with
  | nil => intro s h; exact h
  | cons c cs ih =>
    intro s h
    rw [List.foldl_cons]
    apply ih
    rw [GC_lookup, h]
    have : i.IsExpired (c k) = false := by
      rw [IsExpired_eq_false_iff]
      exact Or.inl h0
    simp [Option.filter, this]

/-- C6: a sweep of the map store that visits each key `k` at the instant
`clock k` (a sweep at one instant `s` is the constant clock) leaves a
mapping in which a key is present iff it was present before and its Item
is not expired then, that is its ExpiresAt is zero or the instant is not
strictly after ExpiresAt; a key that is present afterwards holds the very
Item it held before, so no key is added; and an entry whose ExpiresAt is
zero is still there, unchanged, after any finite sequence of sweeps. -/
theorem C6_gomap_gc {V : Type} (s : Store V) (clock : String → Time) :
    (∀ k, k ∈ (s.GC clock).m ↔
      ∃ i, s.m.lookup k = some i ∧
        (i.ExpiresAt = 0 ∨ ¬ i.ExpiresAt < clock k)) ∧
    (∀ k i, (s.GC clock).m.lookup k = some i → s.m.lookup k = some i) ∧
    (∀ k i (clocks : List (String → Time)), s.m.lookup k = some i →
      i.ExpiresAt = 0 → (clocks.foldl Store.GC s).m.lookup k = some i) := by
  refine ⟨?_, ?_, ?_⟩
  · intro k
    rw [← AList.lookup_isSome, GC_lookup]
    cases h : s.m.lookup k with
    | none => simp [Option.filter]
    | some i =>
      by_cases hx : i.IsExpired (clock k) = true
      · have hx2 := hx
        rw [IsExpired_iff] at hx2
        simp only [Option.filter, hx, Bool.not_true, Bool.false_eq_true,
          if_false, Option.isSome_none, Option.some.injEq, exists_eq_left',
          false_iff]
        rintro (h0 | h1)
        · exact hx2.1 h0
        · exact h1 hx2.2
      · have hx2 : i.IsExpired (clock k) = false := by simpa using hx
        have hx3 := (IsExpired_eq_false_iff i (clock k)).1 hx2
        simp only [not_lt] at hx3
        simp [Option.filter, hx2, hx3]
  · intro k i h
    rw [GC_lookup] at h
    cases h1 : s.m.lookup k with
    | none => rw [h1] at h; simp [Option.filter] at h
    | some j =>
      rw [h1] at h
      simp only [Option.filter] at h
      split_ifs at h
      exact h
  · intro k i clocks h h0
    exact sweeps_lookup_zero k i h0 clocks s h

end gomap

/-! ## Expiry of an Item -/

theorem file.Item_IsExpired_iff {V : Type} (j : file.Item V) (now : Time) :
    j.IsExpired now = true ↔ j.ExpiresAt ≠ 0 ∧ j.ExpiresAt < now := by
  unfold file.Item.IsExpired Time.IsZero Time.After
  by_cases h : j.ExpiresAt = 0 <;> simp [h]

/-- C7: for every Item of the map store and of the file store and every
current time `now`, IsExpired returns true iff ExpiresAt is not the zero
instant and `now` is strictly after ExpiresAt; so an Item with zero
ExpiresAt is expired at no time, and an Item is not expired at the instant
`now` = ExpiresAt. -/
theorem C7_item_is_expired {V : Type} (i : gomap.Item) (j : file.Item V)
    (now : Time) (data : Bytes) (d : Option V) :
    (i.IsExpired now = true ↔ i.ExpiresAt ≠ 0 ∧ i.ExpiresAt < now) ∧
    (j.IsExpired now = true ↔ j.ExpiresAt ≠ 0 ∧ j.ExpiresAt < now) ∧
    (({ ExpiresAt := 0, Data := data } : gomap.Item).IsExpired now = false) ∧
    (({ ExpiresAt := 0, Data := d } : file.Item V).IsExpired now = false) ∧
    i.IsExpired i.ExpiresAt = false ∧
    j.IsExpired j.ExpiresAt = false := by
  refine ⟨gomap.IsExpired_iff i now, file.Item_IsExpired_iff j now, ?_, ?_, ?_, ?_⟩
  · simp [gomap.Item.IsExpired, Time.IsZero]
  · simp [file.Item.IsExpired, Time.IsZero]
  · simp [gomap.Item.IsExpired, Time.After]
  · simp [file.Item.IsExpired, Time.After]

/-! ## The map store: overwriting, deleting, looking up -/

namespace gomap

/-- C8: in the map store `SetEx` overwrites: from every state, with a key
other than "" and encodable non-nil values, after `SetEx(k, v1, ttl1)` and
then `SetEx(k, v2, ttl2)` at time `t` (both return no error) the key holds
exactly the Item of the second call, whose payload is the encoding of `v2`
and whose ExpiresAt is zero if `ttl2` is 0 and `t + ttl2` otherwise; every
other key holds what it held before; and when `ttl2` is 0, as in a `Set`,
the entry is still there after any sequence of sweeps, whatever deadline
the first call gave. -/
theorem C8_gomap_setex_overwrites {V : Type} (s : Store V) (t1 t : Time)
    (k : String) (v1 v2 : V) (ttl1 ttl2 : Duration) (data1 data2 : Bytes)
    (hk : k ≠ "") (henc1 : s.codec.Marshal (some v1) = .ok data1)
    (henc2 : s.codec.Marshal (some v2) = .ok data2) :
    (s.SetEx t1 k (some v1) ttl1).2 = none ∧
    ((s.SetEx t1 k (some v1) ttl1).1.SetEx t k (some v2) ttl2).2 = none ∧
    ((s.SetEx t1 k (some v1) ttl1).1.SetEx t k (some v2) ttl2).1.m.lookup k =
      some { ExpiresAt := if ttl2 = 0 then 0 else t + ttl2, Data := data2 } ∧
    (∀ k1, k1 ≠ k →
      ((s.SetEx t1 k (some v1) ttl1).1.SetEx t k (some v2) ttl2).1.m.lookup k1 =
        s.m.lookup k1) ∧
    (ttl2 = 0 → ∀ clocks : List (String → Time),
      (clocks.foldl Store.GC
        ((s.SetEx t1 k (some v1) ttl1).1.SetEx t k (some v2) ttl2).1).m.lookup k =
        some { ExpiresAt := 0, Data := data2 }) := by
  have h1 := SetEx_ok s t1 k v1 ttl1 data1 hk henc1
  have hc : (s.SetEx t1 k (some v1) ttl1).1.codec = s.codec := by rw [h1]
  have h2 := SetEx_ok (s.SetEx t1 k (some v1) ttl1).1 t k v2 ttl2 data2 hk
    (by rw [hc]; exact henc2)
  have hl : ((s.SetEx t1 k (some v1) ttl1).1.SetEx t k (some v2) ttl2).1.m.lookup k =
      some { ExpiresAt := if ttl2 = 0 then 0 else t + ttl2, Data := data2 } := by
    rw [h2]
    exact AList.lookup_insert _
  refine ⟨by rw [h1], by rw [h2], hl, ?_, ?_⟩
  · intro k1 hne
    rw [SetEx_lookup_ne _ _ _ _ _ _ (Ne.symm hne),
      SetEx_lookup_ne _ _ _ _ _ _ (Ne.symm hne)]
  · intro h0 clocks
    rw [if_pos h0] at hl
    exact sweeps_lookup_zero k _ rfl clocks _ hl

/-- C8 at the empty store with the unary codec: `SetEx("a", 1, 5s)` at
time 7 and then `Set("a", 2)` at time 9. -/
theorem C8_gomap_setex_overwrites_witness :
    (emptyStore.SetEx 7 "a" (some 1) (5 * Second)).2 = none ∧
    ((emptyStore.SetEx 7 "a" (some 1) (5 * Second)).1.SetEx 9 "a" (some 2) 0).2 =
      none ∧
    ((emptyStore.SetEx 7 "a" (some 1) (5 * Second)).1.SetEx 9 "a"
        (some 2) 0).1.m.lookup "a" =
      some { ExpiresAt := if (0 : Duration) = 0 then 0 else 9 + 0,
             Data := [1, 1] } ∧
    (∀ k1, k1 ≠ "a" →
      ((emptyStore.SetEx 7 "a" (some 1) (5 * Second)).1.SetEx 9 "a"
          (some 2) 0).1.m.lookup k1 = emptyStore.m.lookup k1) ∧
    ((0 : Duration) = 0 → ∀ clocks : List (String → Time),
      (clocks.foldl Store.GC
        ((emptyStore.SetEx 7 "a" (some 1) (5 * Second)).1.SetEx 9 "a"
          (some 2) 0).1).m.lookup "a" =
        some { ExpiresAt := 0, Data := [1, 1] }) :=
  C8_gomap_setex_overwrites emptyStore 7 9 "a" 1 2 (5 * Second) 0 [1] [1, 1]
    (by decide) rfl rfl

theorem erase_erase_self (m : GoMap Item) (k : String) :
    (m.erase k).erase k = m.erase k := by
  apply AList.ext
  show List.kerase k (m.erase k).entries = (m.erase k).entries
  apply List.kerase_of_not_mem_keys
  intro h
  have h1 : k ∈ m.erase k := h
  rw [AList.mem_erase] at h1
  exact h1.1 rfl

/-- C9: in the map store, from every state and for every key other than "":
`Delete(k)` returns no error, whether `k` is present or not; after it
`Has(k)` is false and `Get(k, &out)` returns found = false and err = nil;
every other key holds what it held before; and a second `Delete(k)` also
returns no error and leaves the state of the first. -/
theorem C9_gomap_delete {V : Type} (s : Store V) (k : String) (out : V)
    (hk : k ≠ "") :
    (s.Delete k).2 = none ∧
    ((s.Delete k).1.Has k).2 = false ∧
    (s.Delete k).1.Get k (some out) =
      { store := (s.Delete k).1, found := false, err := none,
        out := some out } ∧
    (∀ k1, k1 ≠ k → (s.Delete k).1.m.lookup k1 = s.m.lookup k1) ∧
    (s.Delete k).1.Delete k = ((s.Delete k).1, none) := by
  have hd : s.Delete k = ({ m := s.m.erase k, codec := s.codec }, none) := by
    simp [Store.Delete, util.CheckKey_ne hk]
  rw [hd]
  refine ⟨rfl, ?_, ?_, ?_, ?_⟩
  · simp [Store.Has, util.CheckKey_ne hk, AList.lookup_erase]
  · exact Get_of_lookup_none _ k out hk (AList.lookup_erase k s.m)
  · intro k1 hne
    exact AList.lookup_erase_ne hne
  · simp [Store.Delete, util.CheckKey_ne hk, erase_erase_self]

/-- C9 at the empty store: deleting the absent key "missing", twice. -/
theorem C9_gomap_delete_witness :
    (emptyStore.Delete "missing").2 = none ∧
    ((emptyStore.Delete "missing").1.Has "missing").2 = false ∧
    (emptyStore.Delete "missing").1.Get "missing" (some 0) =
      { store := (emptyStore.Delete "missing").1, found := false, err := none,
        out := some 0 } ∧
    (∀ k1, k1 ≠ "missing" →
      (emptyStore.Delete "missing").1.m.lookup k1 = emptyStore.m.lookup k1) ∧
    (emptyStore.Delete "missing").1.Delete "missing" =
      ((emptyStore.Delete "missing").1, none) :=
  C9_gomap_delete emptyStore "missing" 0 (by decide)

/-- C10: in the map store, from every state, for a key other than "" and a
non-nil target: `Get` reports found = true iff the key is in the mapping
iff `Has` is true, whether or not the payload decodes; when the key is
absent `Get` returns exactly found = false and err = nil; when the key is
present and the codec fails on its payload with the error `e`, `Get`
returns found = true and err = `e`; and neither `Get` nor `Has` changes
the store. -/
theorem C10_gomap_get_has {V : Type} (s : Store V) (k : String) (out : V)
    (hk : k ≠ "") :
    ((s.Get k (some out)).found = true ↔ k ∈ s.m) ∧
    (k ∈ s.m ↔ (s.Has k).2 = true) ∧
    (k ∉ s.m →
      s.Get k (some out) =
        { store := s, found := false, err := none, out := some out }) ∧
    (∀ i e, s.m.lookup k = some i →
      (s.codec.Unmarshal i.Data (some out)).1 = some e →
      (s.Get k (some out)).found = true ∧ (s.Get k (some out)).err = some e) ∧
    (s.Get k (some out)).store = s ∧
    (s.Has k).1 = s := by
  have hhas : s.Has k = (s, (s.m.lookup k).isSome) := by
    simp [Store.Has, util.CheckKey_ne hk]
  refine ⟨?_, ?_, ?_, ?_, ?_, ?_⟩
  · rw [← AList.lookup_isSome]
    cases h : s.m.lookup k with
    | none => rw [Get_of_lookup_none s k out hk h]; simp
    | some i => rw [Get_of_lookup_some s k out i hk h]; simp
  · rw [hhas, ← AList.lookup_isSome]
  · intro h
    exact Get_of_lookup_none s k out hk (AList.lookup_eq_none.2 h)
  · intro i e h he
    rw [Get_of_lookup_some s k out i hk h]
    exact ⟨rfl, he⟩
  · cases h : s.m.lookup k with
    | none => rw [Get_of_lookup_none s k out hk h]
    | some i => rw [Get_of_lookup_some s k out i hk h]
  · rw [hhas]

end gomap

namespace gomap

/-- C10 at a store whose key "a" holds a payload the unary codec rejects:
`Get("a", &x)` returns found = true with the codec's error. -/
theorem C10_gomap_get_has_witness :
    ((undecodableStore.Get "a" (some 0)).found = true ↔
      "a" ∈ undecodableStore.m) ∧
    ("a" ∈ undecodableStore.m ↔ (undecodableStore.Has "a").2 = true) ∧
    ("a" ∉ undecodableStore.m →
      undecodableStore.Get "a" (some 0) =
        { store := undecodableStore, found := false, err := none,
          out := some 0 }) ∧
    (∀ i e, undecodableStore.m.lookup "a" = some i →
      (undecodableStore.codec.Unmarshal i.Data (some 0)).1 = some e →
      (undecodableStore.Get "a" (some 0)).found = true ∧
      (undecodableStore.Get "a" (some 0)).err = some e) ∧
    (undecodableStore.Get "a" (some 0)).store = undecodableStore ∧
    (undecodableStore.Has "a").1 = undecodableStore :=
  C10_gomap_get_has undecodableStore "a" 0 (by decide)

end gomap

/-! ## The file store: round trip -/

namespace file

theorem prepFileLock_open {V : Type} (s : Store V) (key : String)
    (locks : GoMap Nat) (h : s.fileLocks = some locks) :
    ∃ (s1 : Store V) (lock : Nat), s.prepFileLock key = .ok (s1, lock) ∧
      s1.filenameExtension = s.filenameExtension ∧
      s1.directory = s.directory ∧ s1.codec = s.codec ∧
      s1.prepFileLock key = .ok (s1, lock) := by
  cases hl : locks.lookup key with
  | some lock =>
    have hp : s.prepFileLock key = .ok (s, lock) := by
      simp only [Store.prepFileLock, h, hl]
    exact ⟨s, lock, hp, rfl, rfl, rfl, hp⟩
  | none =>
    refine ⟨{ s with fileLocks := some (locks.insert key s.allocated),
                     allocated := s.allocated + 1 }, s.allocated,
      ?_, rfl, rfl, rfl, ?_⟩
    · simp only [Store.prepFileLock, h, hl]
    · simp only [Store.prepFileLock, AList.lookup_insert]

theorem filePath_congr {V : Type} (lib : PathLib) (s s1 : Store V)
    (key : String) (he : s1.filenameExtension = s.filenameExtension)
    (hd : s1.directory = s.directory) :
    s1.filePath lib key = s.filePath lib key := by
  unfold Store.filePath
  rw [he, hd]

/-- C2: in the file store, with the files a map from path to bytes on which
writes succeed, on a store that is not closed, for a key other than "", a
non-nil value `v` and any `ttl`, when the codec encodes the Item that
`SetEx` builds (to `data`) and decodes it into an Item whose Data points to
the target without error, leaving `v` there: `SetEx(k, v, ttl)` returns no
error, it writes `data` to the path of `k`, and the `Get(k, &out)` right
after it reads that path and returns found = true and err = nil with the
target holding `v`. -/
theorem C2_file_setex_get_roundtrip {V : Type} (lib : PathLib) (w : World V)
    (locks : GoMap Nat) (now : Time) (k : String) (v out : V)
    (ttl : Duration) (data : Bytes) (hk : k ≠ "")
    (hopen : w.store.fileLocks = some locks)
    (henc : w.store.codec.Marshal
      { ExpiresAt := if ttl = 0 then 0 else now + ttl, Data := some v } =
        .ok data)
    (hdec : (w.store.codec.Unmarshal data { Data := some out }).1 = none)
    (hout : (w.store.codec.Unmarshal data { Data := some out }).2.Data =
      some v) :
    ∃ w1 : World V, SetEx lib w now k (some v) ttl = .ok (w1, none) ∧
      w1.fs.lookup (w.store.filePath lib (lib.PathEscape k)) = some data ∧
      Get lib w1 k (some out) =
        .ok { world := w1, found := true, err := none, out := some v } := by
  obtain ⟨s1, lock, hp, he, hd, hc, hp1⟩ :=
    prepFileLock_open w.store (lib.PathEscape k) locks hopen
  have hpath := filePath_congr lib w.store s1 (lib.PathEscape k) he hd
  have hitem : (if ttl = 0 then ({ Data := some v } : Item V)
      else { ExpiresAt := Time.Add now ttl, Data := some v }) =
      { ExpiresAt := if ttl = 0 then 0 else now + ttl, Data := some v } := by
    split_ifs <;> rfl
  refine ⟨{ store := s1,
            fs := w.fs.insert (s1.filePath lib (lib.PathEscape k)) data },
    ?_, ?_, ?_⟩
  · unfold SetEx
    rw [util.CheckKeyAndValue_some hk]
    simp only [hitem, henc, hp, ioutil.WriteFile]
  · rw [hpath]
    exact AList.lookup_insert _
  · unfold Get
    rw [util.CheckKeyAndValue_some hk]
    simp only [hp1, ioutil.ReadFile, AList.lookup_insert, hc, hdec, hout]

/-- C2 on a new store with the sample codec: `SetEx("22231028", 1, 25)` at
time 3 and then `Get("22231028", &val)`. -/
theorem C2_file_setex_get_roundtrip_witness :
    ∃ w1 : World Nat,
      SetEx plainPaths emptyWorld 3 "22231028" (some 1) 25 = .ok (w1, none) ∧
      w1.fs.lookup (emptyWorld.store.filePath plainPaths
        (plainPaths.PathEscape "22231028")) =
        some (List.replicate 28 0 ++ [1]) ∧
      Get plainPaths w1 "22231028" (some 0) =
        .ok { world := w1, found := true, err := none, out := some 1 } :=
  C2_file_setex_get_roundtrip plainPaths emptyWorld ∅ 3 "22231028" 1 0 25
    (List.replicate 28 0 ++ [1]) (by decide) rfl rfl rfl rfl

end file

/-! ## The sync.Map store against the map store -/

namespace syncmap

theorem syncGC_fold_lookup (clock : String → Time) (k : String) :
    ∀ (l : List (Sigma fun _ : String => Item)) (acc : GoMap Item),
      (l.foldl (fun m e => Store.GC.visit (clock e.1) m e.1 e.2) acc).lookup k =
        if (∃ e ∈ l, e.1 = k ∧ e.2.IsExpired (clock k) = true) then none
        else acc.lookup k := by
  intro l
  induction l with
  | nil => intro acc; simp
  | cons e l ih =>
    intro acc
    rw [List.foldl_cons, ih]
    by_cases hl : ∃ e1 ∈ l, e1.1 = k ∧ e1.2.IsExpired (clock k) = true
    · have hcons : ∃ e1 ∈ e :: l, e1.1 = k ∧ e1.2.IsExpired (clock k) = true := by
        obtain ⟨e1, he1, h⟩ := hl
        exact ⟨e1, List.mem_cons_of_mem _ he1, h⟩
      rw [if_pos hl, if_pos hcons]
    · rw [if_neg hl]
      by_cases he : e.1 = k ∧ e.2.IsExpired (clock k) = true
      · have hcons : ∃ e1 ∈ e :: l, e1.1 = k ∧ e1.2.IsExpired (clock k) = true :=
          ⟨e, List.mem_cons_self _ _, he⟩
        rw [if_pos hcons]
        obtain ⟨h1, h2⟩ := he
        subst h1
        simp [Store.GC.visit, h2]
      · have hcons : ¬ ∃ e1 ∈ e :: l, e1.1 = k ∧ e1.2.IsExpired (clock k) = true := by
          rintro ⟨e1, he1, h⟩
          rcases List.mem_cons.1 he1 with rfl | h1
          · exact he h
          · exact hl ⟨e1, h1, h⟩
        rw [if_neg hcons]
        unfold Store.GC.visit
        simp only [Bool.true_and]
        by_cases hx : e.2.IsExpired (clock e.1) = true
        · rw [if_pos hx]
          have hne : k ≠ e.1 := by
            intro hk
            apply he
            exact ⟨hk.symm, by rw [hk]; exact hx⟩
          exact AList.lookup_erase_ne hne
        · rw [if_neg hx]

/-- After a sweep a key holds what it held before, unless that Item is expired
at the clock reading of its visit, in which case the key is gone. -/
theorem syncGC_lookup {V : Type} (s : Store V) (clock : String → Time)
    (k : String) :
    (s.GC clock).m.lookup k =
      (s.m.lookup k).filter (fun i => !i.IsExpired (clock k)) := by
  unfold Store.GC
  simp only
  rw [syncGC_fold_lookup]
  cases h : s.m.lookup k with
  | none =>
    simp only [Option.filter]
    split_ifs <;> rfl
  | some i =>
    have hmem : (⟨k, i⟩ : Sigma fun _ : String => Item) ∈ s.m.entries :=
      AList.mem_lookup_iff.1 h
    by_cases hx : i.IsExpired (clock k) = true
    · have hex : ∃ e ∈ s.m.entries, e.1 = k ∧ e.2.IsExpired (clock k) = true :=
        ⟨⟨k, i⟩, hmem, rfl, hx⟩
      rw [if_pos hex]
      simp [Option.filter, hx]
    · have hex : ¬ ∃ e ∈ s.m.entries, e.1 = k ∧ e.2.IsExpired (clock k) = true := by
        rintro ⟨⟨k1, i1⟩, he, hk, hexp⟩
        simp only at hk
        subst hk
        have h1 : s.m.lookup k1 = some i1 := AList.mem_lookup_iff.2 he
        rw [h] at h1
        cases h1
        exact hx hexp
      rw [if_neg hex]
      simp [Option.filter, hx]

/-- The two Item types expire alike. -/
theorem IsExpired_eq_gomap (i : Item) (j : gomap.Item) (now : Time)
    (h : i.ExpiresAt = j.ExpiresAt) : i.IsExpired now = j.IsExpired now := by
  unfold Item.IsExpired gomap.Item.IsExpired
  rw [h]

/-- The two stores hold the same mapping at `k`: both nothing, or Items with
the same fields. -/
theorem mapping_eq_iff {V : Type} (s : Store V) (g : gomap.Store V) (k : String) :
    s.mapping k = g.mapping k ↔
      (s.m.lookup k = none ∧ g.m.lookup k = none) ∨
      ∃ i j, s.m.lookup k = some i ∧ g.m.lookup k = some j ∧
        i.ExpiresAt = j.ExpiresAt ∧ i.Data = j.Data := by
  unfold Store.mapping gomap.Store.mapping
  cases hs : s.m.lookup k <;> cases hg : g.m.lookup k <;> simp

end syncmap

namespace syncmap

theorem SetEx_sim {V : Type} (s : Store V) (g : gomap.Store V)
    (hc : s.codec = g.codec) (hm : ∀ k, s.mapping k = g.mapping k)
    (now : Time) (k : String) (v : Option V) (expires : Duration) :
    (s.SetEx now k v expires).2 = (g.SetEx now k v expires).2 ∧
    (s.SetEx now k v expires).1.codec = (g.SetEx now k v expires).1.codec ∧
    ∀ k1, (s.SetEx now k v expires).1.mapping k1 =
      (g.SetEx now k v expires).1.mapping k1 := by
  unfold Store.SetEx gomap.Store.SetEx
  rw [hc]
  cases util.CheckKeyAndValue k v with
  | some err => exact ⟨rfl, hc, hm⟩
  | none =>
    simp only
    cases g.codec.Marshal v with
    | error err => exact ⟨rfl, hc, hm⟩
    | ok data =>
      refine ⟨rfl, rfl, ?_⟩
      intro k1
      by_cases hk : k1 = k
      · subst hk
        simp only [Store.mapping, gomap.Store.mapping, AList.lookup_insert]
        split_ifs <;> rfl
      · have h := hm k1
        simp only [Store.mapping, gomap.Store.mapping] at h ⊢
        rw [AList.lookup_insert_ne hk, AList.lookup_insert_ne hk]
        exact h

theorem Get_sim {V : Type} (s : Store V) (g : gomap.Store V)
    (hc : s.codec = g.codec) (hm : ∀ k, s.mapping k = g.mapping k)
    (k : String) (v : Option V) :
    (s.Get k v).found = (g.Get k v).found ∧ (s.Get k v).err = (g.Get k v).err ∧
    (s.Get k v).out = (g.Get k v).out ∧ (s.Get k v).store = s ∧
    (g.Get k v).store = g := by
  unfold Store.Get gomap.Store.Get
  rw [hc]
  cases util.CheckKeyAndValue k v with
  | some err => exact ⟨rfl, rfl, rfl, rfl, rfl⟩
  | none =>
    simp only
    rcases (mapping_eq_iff s g k).1 (hm k) with ⟨h1, h2⟩ | ⟨i, j, h1, h2, _, hd⟩
    · rw [h1, h2]
      simp
    · rw [h1, h2]
      simp [hd]

theorem Has_sim {V : Type} (s : Store V) (g : gomap.Store V)
    (hm : ∀ k, s.mapping k = g.mapping k) (k : String) :
    (s.Has k).2 = (g.Has k).2 ∧ (s.Has k).1 = s ∧ (g.Has k).1 = g := by
  unfold Store.Has gomap.Store.Has
  cases util.CheckKey k with
  | some err => exact ⟨rfl, rfl, rfl⟩
  | none =>
    simp only
    rcases (mapping_eq_iff s g k).1 (hm k) with ⟨h1, h2⟩ | ⟨i, j, h1, h2, _, _⟩
    · rw [h1, h2]
      simp
    · rw [h1, h2]
      simp

theorem Delete_sim {V : Type} (s : Store V) (g : gomap.Store V)
    (hc : s.codec = g.codec) (hm : ∀ k, s.mapping k = g.mapping k)
    (k : String) :
    (s.Delete k).2 = (g.Delete k).2 ∧
    (s.Delete k).1.codec = (g.Delete k).1.codec ∧
    ∀ k1, (s.Delete k).1.mapping k1 = (g.Delete k).1.mapping k1 := by
  unfold Store.Delete gomap.Store.Delete
  cases util.CheckKey k with
  | some err => exact ⟨rfl, hc, hm⟩
  | none =>
    refine ⟨rfl, hc, ?_⟩
    intro k1
    by_cases hk : k1 = k
    · subst hk
      simp [Store.mapping, gomap.Store.mapping, AList.lookup_erase]
    · have h := hm k1
      simp only [Store.mapping, gomap.Store.mapping] at h ⊢
      rw [AList.lookup_erase_ne hk, AList.lookup_erase_ne hk]
      exact h

theorem GC_sim {V : Type} (s : Store V) (g : gomap.Store V)
    (hc : s.codec = g.codec) (hm : ∀ k, s.mapping k = g.mapping k)
    (clock : String → Time) :
    (s.GC clock).codec = (g.GC clock).codec ∧
    ∀ k, (s.GC clock).mapping k = (g.GC clock).mapping k := by
  refine ⟨hc, ?_⟩
  intro k
  simp only [Store.mapping, gomap.Store.mapping, syncGC_lookup, gomap.GC_lookup]
  rcases (mapping_eq_iff s g k).1 (hm k) with ⟨h1, h2⟩ | ⟨i, j, h1, h2, he, hd⟩
  · rw [h1, h2]
    rfl
  · rw [h1, h2]
    have hx := IsExpired_eq_gomap i j (clock k) he
    simp only [Option.filter, hx]
    split_ifs
    · simp [he, hd]
    · rfl

/-- One call returns the same from both stores and leaves them with the same
codec and the same mapping. -/
theorem call_sim {V : Type} (s : Store V) (g : gomap.Store V)
    (hc : s.codec = g.codec) (hm : ∀ k, s.mapping k = g.mapping k)
    (op : gomap.Op V) :
    (s.call op).2 = (g.call op).2 ∧
    (s.call op).1.codec = (g.call op).1.codec ∧
    ∀ k, (s.call op).1.mapping k = (g.call op).1.mapping k := by
  cases op with
  | Set now k v =>
    have h := SetEx_sim s g hc hm now k v 0
    simp only [Store.call, gomap.Store.call, Store.Set, gomap.Store.Set]
    exact ⟨by rw [h.1], h.2.1, h.2.2⟩
  | SetEx now k v expires =>
    have h := SetEx_sim s g hc hm now k v expires
    simp only [Store.call, gomap.Store.call]
    exact ⟨by rw [h.1], h.2.1, h.2.2⟩
  | Get k v =>
    obtain ⟨h1, h2, h3, h4, h5⟩ := Get_sim s g hc hm k v
    simp only [Store.call, gomap.Store.call]
    rw [h1, h2, h3, h4, h5]
    exact ⟨rfl, hc, hm⟩
  | Has k =>
    obtain ⟨h1, h2, h3⟩ := Has_sim s g hm k
    simp only [Store.call, gomap.Store.call]
    rw [h1, h2, h3]
    exact ⟨rfl, hc, hm⟩
  | Delete k =>
    have h := Delete_sim s g hc hm k
    simp only [Store.call, gomap.Store.call]
    exact ⟨by rw [h.1], h.2.1, h.2.2⟩
  | GC clock =>
    have h := GC_sim s g hc hm clock
    simp only [Store.call, gomap.Store.call]
    exact ⟨trivial, h.1, h.2⟩

/-- A sequence of calls returns the same from both stores and leaves them with
the same codec and the same mapping. -/
theorem calls_sim {V : Type} (ops : List (gomap.Op V)) :
    ∀ (s : Store V) (g : gomap.Store V), s.codec = g.codec →
      (∀ k, s.mapping k = g.mapping k) →
      (s.calls ops).2 = (g.calls ops).2 ∧
      (s.calls ops).1.codec = (g.calls ops).1.codec ∧
      ∀ k, (s.calls ops).1.mapping k = (g.calls ops).1.mapping k := by
  induction ops with
  | nil => intro s g hc hm; exact ⟨rfl, hc, hm⟩
  | cons op ops ih =>
    intro s g hc hm
    obtain ⟨h1, h2, h3⟩ := call_sim s g hc hm op
    obtain ⟨i1, i2, i3⟩ := ih (s.call op).1 (g.call op).1 h2 h3
    simp only [Store.calls, gomap.Store.calls]
    exact ⟨by rw [h1, i1], i2, i3⟩

/-- C11: the sync.Map store and the map store are observationally equivalent
for one caller at a time: from empty stores with the same codec and with the
same clock readings, every finite sequence of Set, SetEx, Get, Has, Delete
and GC calls returns the same results from both (errors, found flags, what
the targets hold), and after each call, that is after every initial part of
the sequence, both hold the same mapping from keys to Items. -/
theorem C11_syncmap_equiv_gomap {V : Type} (codec : Codec (Option V))
    (ops : List (gomap.Op V)) :
    ((New codec).calls ops).2 = ((gomap.New codec).calls ops).2 ∧
    ∀ (n : Nat) (k : String),
      ((New codec).calls (ops.take n)).1.mapping k =
        ((gomap.New codec).calls (ops.take n)).1.mapping k := by
  have h0 : ∀ k, (New codec).mapping k = (gomap.New codec).mapping k := by
    intro k
    simp [Store.mapping, gomap.Store.mapping, New, gomap.New]
  refine ⟨(calls_sim ops (New codec) (gomap.New codec) rfl h0).1, ?_⟩
  intro n k
  exact (calls_sim (ops.take n) (New codec) (gomap.New codec) rfl h0).2.2 k

end syncmap

/-! ## The file store: what Get and Has make of a failed read -/

namespace file

/-- C13: in the file store that is not closed, for a key other than "" and a
non-nil target, with `path` the path of the key: `Get` returns found = false
and err = nil when the read fails because the file is missing, and
found = false with the read error itself when the read fails otherwise;
`Has` returns true iff the read succeeds, so false for a missing file and
for every other read error alike; and both leave every file as it is. -/
theorem C13_file_get_has_read_failure {V : Type} (lib : PathLib) (w : World V)
    (locks : GoMap Nat) (k : String) (target : V) (hk : k ≠ "")
    (hopen : w.store.fileLocks = some locks) :
    (∃ r : GetResult V, Get lib w k (some target) = .ok r ∧
      r.world.fs = w.fs ∧
      (∀ e, ioutil.ReadFile lib w.fs
          (w.store.filePath lib (lib.PathEscape k)) = .error e →
        os.IsNotExist (some e) = true → r.found = false ∧ r.err = none) ∧
      (∀ e, ioutil.ReadFile lib w.fs
          (w.store.filePath lib (lib.PathEscape k)) = .error e →
        os.IsNotExist (some e) = false → r.found = false ∧ r.err = some e)) ∧
    (∃ (w1 : World V) (b : Bool), Has lib w k = .ok (w1, b) ∧ w1.fs = w.fs ∧
      (b = true ↔ ∃ data, ioutil.ReadFile lib w.fs
          (w.store.filePath lib (lib.PathEscape k)) = .ok data)) := by
  obtain ⟨s1, lock, hp, he, hd, _, _⟩ :=
    prepFileLock_open w.store (lib.PathEscape k) locks hopen
  have hpath := filePath_congr lib w.store s1 (lib.PathEscape k) he hd
  constructor
  · unfold Get
    rw [util.CheckKeyAndValue_some hk]
    simp only [hp, hpath]
    cases hr : ioutil.ReadFile lib w.fs (w.store.filePath lib (lib.PathEscape k)) with
    | error e =>
      simp only
      by_cases hne : os.IsNotExist (some e) = true
      · rw [if_pos hne]
        refine ⟨_, rfl, rfl, ?_, ?_⟩
        · intro e1 _ _
          exact ⟨rfl, rfl⟩
        · intro e1 h1 h2
          cases h1
          rw [hne] at h2
          cases h2
      · rw [if_neg hne]
        refine ⟨_, rfl, rfl, ?_, ?_⟩
        · intro e1 h1 h2
          cases h1
          exact absurd h2 hne
        · intro e1 h1 _
          cases h1
          exact ⟨rfl, rfl⟩
    | ok data =>
      simp only
      cases hu : (s1.codec.Unmarshal data { Data := some target }).1 with
      | some err =>
        refine ⟨_, rfl, rfl, ?_, ?_⟩ <;> intro e1 h1 <;> cases h1
      | none =>
        refine ⟨_, rfl, rfl, ?_, ?_⟩ <;> intro e1 h1 <;> cases h1
  · unfold Has
    rw [util.CheckKey_ne hk]
    simp only [hp, hpath]
    cases hr : ioutil.ReadFile lib w.fs (w.store.filePath lib (lib.PathEscape k)) with
    | error e =>
      refine ⟨_, false, rfl, rfl, ?_⟩
      simp
    | ok data =>
      refine ⟨_, true, rfl, rfl, ?_⟩
      simp

/-- C13 on a new store whose directory cannot be read: `Get("a", &x)` returns
found = false with the read error, and `Has("a")` returns false. -/
theorem C13_file_get_has_read_failure_witness :
    (∃ r : GetResult Nat, Get unreadablePaths emptyWorld "a" (some 0) = .ok r ∧
      r.world.fs = emptyWorld.fs ∧
      (∀ e, ioutil.ReadFile unreadablePaths emptyWorld.fs
          (emptyWorld.store.filePath unreadablePaths
            (unreadablePaths.PathEscape "a")) = .error e →
        os.IsNotExist (some e) = true → r.found = false ∧ r.err = none) ∧
      (∀ e, ioutil.ReadFile unreadablePaths emptyWorld.fs
          (emptyWorld.store.filePath unreadablePaths
            (unreadablePaths.PathEscape "a")) = .error e →
        os.IsNotExist (some e) = false → r.found = false ∧ r.err = some e)) ∧
    (∃ (w1 : World Nat) (b : Bool),
      Has unreadablePaths emptyWorld "a" = .ok (w1, b) ∧
      w1.fs = emptyWorld.fs ∧
      (b = true ↔ ∃ data, ioutil.ReadFile unreadablePaths emptyWorld.fs
          (emptyWorld.store.filePath unreadablePaths
            (unreadablePaths.PathEscape "a")) = .ok data)) :=
  C13_file_get_has_read_failure unreadablePaths emptyWorld ∅ "a" 0
    (by decide) rfl

end file

/-! ## The file store: the registry of locks -/

namespace file

/-- A new store has a sound registry: it is empty. -/
theorem New_sound {V : Type} (d : String) (e : Option String)
    (codec : Codec (Item V)) : (New d e codec).sound := by
  refine ⟨∅, rfl, ?_, ?_⟩
  · intro k l h
    rw [AList.lookup_empty] at h
    cases h
  · intro k1 k2 l h
    rw [AList.lookup_empty] at h
    cases h

/-- On a store with a sound registry `prepFileLock` returns; the registry it
leaves is sound and keeps every registered lock. -/
theorem prepFileLock_sound {V : Type} (s : Store V) (key : String)
    (hs : s.sound) :
    ∃ (s1 : Store V) (lock : Nat),
      s.prepFileLock key = .ok (s1, lock) ∧ s1.sound ∧
      (∀ k l, s.registered k l → s1.registered k l) := by
  obtain ⟨locks, h, hlt, hinj⟩ := hs
  cases hl : locks.lookup key with
  | some lock =>
    refine ⟨s, lock, ?_, ⟨locks, h, hlt, hinj⟩, fun _ _ hr => hr⟩
    simp only [Store.prepFileLock, h, hl]
  | none =>
    refine ⟨{ s with fileLocks := some (locks.insert key s.allocated),
                     allocated := s.allocated + 1 }, s.allocated, ?_, ?_, ?_⟩
    · simp only [Store.prepFileLock, h, hl]
    · refine ⟨locks.insert key s.allocated, rfl, ?_, ?_⟩
      · intro k l hk
        by_cases hkk : k = key
        · subst hkk
          rw [AList.lookup_insert] at hk
          cases hk
          exact Nat.lt_succ_self _
        · rw [AList.lookup_insert_ne hkk] at hk
          exact Nat.lt_succ_of_lt (hlt k l hk)
      · intro k1 k2 l h1 h2
        by_cases e1 : k1 = key
        · by_cases e2 : k2 = key
          · rw [e1, e2]
          · subst e1
            rw [AList.lookup_insert] at h1
            rw [AList.lookup_insert_ne e2] at h2
            cases h1
            exact absurd (hlt k2 _ h2) (Nat.lt_irrefl _)
        · by_cases e2 : k2 = key
          · subst e2
            rw [AList.lookup_insert] at h2
            rw [AList.lookup_insert_ne e1] at h1
            cases h2
            exact absurd (hlt k1 _ h1) (Nat.lt_irrefl _)
          · rw [AList.lookup_insert_ne e1] at h1
            rw [AList.lookup_insert_ne e2] at h2
            exact hinj k1 k2 l h1 h2
    · rintro k l ⟨locks0, h0, hk⟩
      rw [h] at h0
      cases h0
      refine ⟨_, rfl, ?_⟩
      have hne : k ≠ key := by
        intro hkk
        rw [hkk, hl] at hk
        cases hk
      rw [AList.lookup_insert_ne hne]
      exact hk

theorem SetEx_sound {V : Type} (lib : PathLib) (w : World V)
    (hs : w.store.sound) (now : Time) (k : String) (v : Option V)
    (expires : Duration) :
    ∃ r : World V × Option GoError,
      SetEx lib w now k v expires = .ok r ∧ r.1.store.sound ∧
      (∀ key l, w.store.registered key l → r.1.store.registered key l) := by
  obtain ⟨s1, lock, hp, ho, hr⟩ := prepFileLock_sound w.store (lib.PathEscape k) hs
  unfold SetEx
  cases util.CheckKeyAndValue k v with
  | some err => exact ⟨_, rfl, hs, fun _ _ hx => hx⟩
  | none =>
    simp only
    cases w.store.codec.Marshal
      (if expires = 0 then ({ Data := v } : Item V)
        else { ExpiresAt := Time.Add now expires, Data := v }) with
    | error err => exact ⟨_, rfl, hs, fun _ _ hx => hx⟩
    | ok data =>
      simp only [hp]
      exact ⟨_, rfl, ho, hr⟩

theorem Get_sound {V : Type} (lib : PathLib) (w : World V)
    (hs : w.store.sound) (k : String) (v : Option V) :
    ∃ r : GetResult V,
      Get lib w k v = .ok r ∧ r.world.store.sound ∧
      (∀ key l, w.store.registered key l → r.world.store.registered key l) := by
  obtain ⟨s1, lock, hp, ho, hr⟩ := prepFileLock_sound w.store (lib.PathEscape k) hs
  unfold Get
  cases util.CheckKeyAndValue k v with
  | some err => exact ⟨_, rfl, hs, fun _ _ hx => hx⟩
  | none =>
    simp only [hp]
    cases ioutil.ReadFile lib w.fs (s1.filePath lib (lib.PathEscape k)) with
    | error e =>
      simp only
      split_ifs
      · exact ⟨_, rfl, ho, hr⟩
      · exact ⟨_, rfl, ho, hr⟩
    | ok data =>
      simp only
      cases (s1.codec.Unmarshal data { Data := v }).1 with
      | some err => exact ⟨_, rfl, ho, hr⟩
      | none => exact ⟨_, rfl, ho, hr⟩

theorem Has_sound {V : Type} (lib : PathLib) (w : World V)
    (hs : w.store.sound) (k : String) :
    ∃ r : World V × Bool,
      Has lib w k = .ok r ∧ r.1.store.sound ∧
      (∀ key l, w.store.registered key l → r.1.store.registered key l) := by
  obtain ⟨s1, lock, hp, ho, hr⟩ := prepFileLock_sound w.store (lib.PathEscape k) hs
  unfold Has
  cases util.CheckKey k with
  | some err => exact ⟨_, rfl, hs, fun _ _ hx => hx⟩
  | none =>
    simp only [hp]
    cases ioutil.ReadFile lib w.fs (s1.filePath lib (lib.PathEscape k)) with
    | error e => exact ⟨_, rfl, ho, hr⟩
    | ok data => exact ⟨_, rfl, ho, hr⟩

theorem Delete_sound {V : Type} (lib : PathLib) (w : World V)
    (hs : w.store.sound) (k : String) :
    ∃ r : World V × Option GoError,
      Delete lib w k = .ok r ∧ r.1.store.sound ∧
      (∀ key l, w.store.registered key l → r.1.store.registered key l) := by
  obtain ⟨s1, lock, hp, ho, hr⟩ := prepFileLock_sound w.store (lib.PathEscape k) hs
  unfold Delete
  cases util.CheckKey k with
  | some err => exact ⟨_, rfl, hs, fun _ _ hx => hx⟩
  | none =>
    simp only [hp]
    split_ifs
    · exact ⟨_, rfl, ho, hr⟩
    · exact ⟨_, rfl, ho, hr⟩

theorem GC_visit_sound {V : Type} (lib : PathLib) (w : World V)
    (hs : w.store.sound) (now : Time) (e : WalkEntry) :
    ∃ r : World V × Option GoError,
      GC.visit lib w now e = .ok r ∧ r.1.store.sound ∧
      (∀ key l, w.store.registered key l → r.1.store.registered key l) := by
  obtain ⟨s1, lock, hp, ho, hr⟩ := prepFileLock_sound w.store e.path hs
  unfold GC.visit
  simp only [hp]
  cases e.err with
  | some err => exact ⟨_, rfl, ho, hr⟩
  | none =>
    simp only
    by_cases hd : e.isDir = true
    · rw [if_pos hd]
      exact ⟨_, rfl, ho, hr⟩
    · rw [if_neg hd]
      cases ioutil.ReadFile lib w.fs e.path with
      | error err => exact ⟨_, rfl, ho, hr⟩
      | ok data =>
        simp only
        cases (s1.codec.Unmarshal data { Data := none }).1 with
        | some err => exact ⟨_, rfl, ho, hr⟩
        | none =>
          simp only
          split_ifs
          · exact ⟨_, rfl, ho, hr⟩
          · exact ⟨_, rfl, ho, hr⟩

theorem GC_walk_sound {V : Type} (lib : PathLib) (clock : String → Time)
    (entries : List WalkEntry) :
    ∀ w : World V, w.store.sound →
      ∃ r : World V × Option GoError,
        GC.walk lib clock w entries = .ok r ∧ r.1.store.sound ∧
        (∀ key l, w.store.registered key l → r.1.store.registered key l) := by
  induction entries with
  | nil =>
    intro w hs
    exact ⟨(w, none), rfl, hs, fun _ _ hx => hx⟩
  | cons e es ih =>
    intro w hs
    obtain ⟨⟨w1, err⟩, hv, ho, hr⟩ := GC_visit_sound lib w hs (clock e.path) e
    unfold GC.walk
    rw [hv]
    cases err with
    | some x => exact ⟨_, rfl, ho, hr⟩
    | none =>
      obtain ⟨r2, hw2, ho2, hr2⟩ := ih w1 ho
      exact ⟨r2, hw2, ho2, fun key l hx => hr2 key l (hr key l hx)⟩

/-- Every call but `Close` on a store with a sound registry returns, and
leaves a sound registry that keeps every registered lock. -/
theorem step_sound {V : Type} (lib : PathLib) (w : World V)
    (hs : w.store.sound) (op : Op V) (hop : op ≠ Op.Close) :
    ∃ w1 : World V, step lib w op = .ok w1 ∧ w1.store.sound ∧
      (∀ key l, w.store.registered key l → w1.store.registered key l) := by
  cases op with
  | Set now k v =>
    obtain ⟨r, hr, ho, hk⟩ := SetEx_sound lib w hs now k v 0
    exact ⟨r.1, by simp only [step, Set, hr], ho, hk⟩
  | SetEx now k v expires =>
    obtain ⟨r, hr, ho, hk⟩ := SetEx_sound lib w hs now k v expires
    exact ⟨r.1, by simp only [step, hr], ho, hk⟩
  | Get k v =>
    obtain ⟨r, hr, ho, hk⟩ := Get_sound lib w hs k v
    exact ⟨r.world, by simp only [step, hr], ho, hk⟩
  | Has k =>
    obtain ⟨r, hr, ho, hk⟩ := Has_sound lib w hs k
    exact ⟨r.1, by simp only [step, hr], ho, hk⟩
  | Delete k =>
    obtain ⟨r, hr, ho, hk⟩ := Delete_sound lib w hs k
    exact ⟨r.1, by simp only [step, hr], ho, hk⟩
  | GC clock entries =>
    obtain ⟨r, hr, ho, hk⟩ := GC_walk_sound lib clock entries w hs
    exact ⟨r.1, by simp only [step, GC, hr], ho, hk⟩
  | Close => exact absurd rfl hop

theorem run_sound {V : Type} (lib : PathLib) (ops : List (Op V)) :
    ∀ w : World V, w.store.sound → (∀ op ∈ ops, op ≠ Op.Close) →
      ∃ w1 : World V, run lib w ops = .ok w1 ∧ w1.store.sound ∧
        (∀ key l, w.store.registered key l → w1.store.registered key l) := by
  induction ops with
  | nil =>
    intro w hs _
    exact ⟨w, rfl, hs, fun _ _ hx => hx⟩
  | cons op ops ih =>
    intro w hs hops
    obtain ⟨w1, h1, ho, hk⟩ :=
      step_sound lib w hs op (hops op (List.mem_cons_self _ _))
    obtain ⟨w2, hr2, ho2, hk2⟩ :=
      ih w1 ho (fun op1 h1 => hops op1 (List.mem_cons_of_mem _ h1))
    refine ⟨w2, ?_, ho2, fun key l hx => hk2 key l (hk key l hx)⟩
    simp only [run, h1, hr2]

/-- C14, the claim as stated fails at `Close`: on a new store `SetEx("a", 1)`
registers the key "a" with the lock 0, and after `Close` the key "a" is
registered with no lock at all. -/
theorem C14_file_close_drops_registry_counterexample :
    ∃ w1 : World Nat,
      SetEx plainPaths emptyWorld 3 "a" (some 1) 0 = .ok (w1, none) ∧
      w1.store.registered "a" 0 ∧
      ∀ lock, ¬ (Close w1).1.store.registered "a" lock := by
  refine ⟨{ store := { emptyWorld.store with
                       fileLocks := some ((∅ : GoMap Nat).insert "a" 0),
                       allocated := 1 },
            fs := (∅ : FS).insert "kvs/a.json" [1] }, rfl, ?_, ?_⟩
  · exact ⟨_, rfl, rfl⟩
  · rintro lock ⟨locks, h, _⟩
    simp [Close] at h

/-- C14 as amended: a new file store has a sound registry, in which every
registered lock is one of the lock objects created so far and no lock
object is registered under two keys; on a store with a sound registry,
every sequence of calls of Set, SetEx, Get, Has, Delete and GC (every call
but `Close`) returns, leaves the registry sound and leaves every registry
key that was registered before it registered with the same lock object;
`prepFileLock(key)` returns the registered lock and leaves the store as it
is when the key is registered, and otherwise registers the key with one
lock object that is none of the registered ones, changes no other entry,
leaves the registry sound and returns that lock; so a second call with
the same key returns the same lock, and two keys never share a lock
object. (`Close` sets the registry to nil.) -/
theorem C14_file_lock_registry {V : Type} (lib : PathLib) (w : World V)
    (hs : w.store.sound) :
    (∀ (d : String) (e : Option String) (codec : Codec (Item V)),
      (New d e codec).sound) ∧
    (∀ ops : List (Op V), (∀ op ∈ ops, op ≠ Op.Close) →
      ∃ w1 : World V, run lib w ops = .ok w1 ∧ w1.store.sound ∧
        ∀ key lock, w.store.registered key lock →
          w1.store.registered key lock) ∧
    (∀ key lock, w.store.registered key lock →
      w.store.prepFileLock key = .ok (w.store, lock)) ∧
    (∀ key, (∀ lock, ¬ w.store.registered key lock) →
      ∃ (s1 : Store V) (lock : Nat),
        w.store.prepFileLock key = .ok (s1, lock) ∧
        s1.sound ∧
        s1.registered key lock ∧
        (∀ k l, w.store.registered k l → l ≠ lock) ∧
        (∀ k l, k ≠ key → (s1.registered k l ↔ w.store.registered k l))) ∧
    (∀ key, ∃ (s1 : Store V) (lock : Nat),
      w.store.prepFileLock key = .ok (s1, lock) ∧
      s1.prepFileLock key = .ok (s1, lock)) ∧
    (∀ k1 k2 lock, w.store.registered k1 lock →
      w.store.registered k2 lock → k1 = k2) := by
  obtain ⟨locks, hopen, hlt, hinj⟩ := hs
  refine ⟨New_sound, ?_, ?_, ?_, ?_, ?_⟩
  · intro ops hops
    exact run_sound lib ops w ⟨locks, hopen, hlt, hinj⟩ hops
  · rintro key lock ⟨locks0, h0, hl⟩
    rw [hopen] at h0
    cases h0
    simp only [Store.prepFileLock, hopen, hl]
  · intro key hnone
    have hl : locks.lookup key = none := by
      cases hx : locks.lookup key with
      | none => rfl
      | some l => exact absurd ⟨locks, hopen, hx⟩ (hnone l)
    obtain ⟨s1, lock, hp, ho, _⟩ :=
      prepFileLock_sound w.store key ⟨locks, hopen, hlt, hinj⟩
    have hp2 : w.store.prepFileLock key =
        .ok ({ w.store with
                fileLocks := some (locks.insert key w.store.allocated),
                allocated := w.store.allocated + 1 }, w.store.allocated) := by
      simp only [Store.prepFileLock, hopen, hl]
    rw [hp2] at hp
    cases hp
    refine ⟨_, _, hp2, ho, ⟨_, rfl, AList.lookup_insert _⟩, ?_, ?_⟩
    · rintro k l ⟨locks0, h0, hk⟩
      rw [hopen] at h0
      cases h0
      exact ne_of_lt (hlt k l hk)
    · intro k l hne
      constructor
      · rintro ⟨locks1, h1, h2⟩
        cases h1
        rw [AList.lookup_insert_ne hne] at h2
        exact ⟨locks, hopen, h2⟩
      · rintro ⟨locks1, h1, h2⟩
        rw [hopen] at h1
        cases h1
        exact ⟨_, rfl, by rw [AList.lookup_insert_ne hne]; exact h2⟩
  · intro key
    obtain ⟨s1, lock, hp, _, _, _, hp1⟩ :=
      prepFileLock_open w.store key locks hopen
    exact ⟨s1, lock, hp, hp1⟩
  · rintro k1 k2 lock ⟨l1, h1, q1⟩ ⟨l2, h2, q2⟩
    rw [hopen] at h1 h2
    cases h1
    cases h2
    exact hinj k1 k2 lock q1 q2

/-- C14 as amended, on the new store with the default options: `SetEx("a",
1)`, `Get("b", &x)` and a sweep of the directory return and leave a sound
registry; and `prepFileLock("a")` on the new store registers the lock
object 0. -/
theorem C14_file_lock_registry_witness :
    (∃ w1 : World Nat,
      run plainPaths defaultWorld
          [Op.SetEx 3 "a" (some 1) 0, Op.Get "b" (some 0),
           Op.GC (fun _ => 9) [{ path := "kvs", isDir := true },
                               { path := "kvs/a.json" }]] = .ok w1 ∧
      w1.store.sound ∧
      ∀ key lock, defaultWorld.store.registered key lock →
        w1.store.registered key lock) ∧
    (∃ (s1 : Store Nat) (lock : Nat),
      defaultWorld.store.prepFileLock "a" = .ok (s1, lock) ∧
      s1.sound ∧
      s1.registered "a" lock ∧
      (∀ k l, defaultWorld.store.registered k l → l ≠ lock) ∧
      (∀ k l, k ≠ "a" →
        (s1.registered k l ↔ defaultWorld.store.registered k l))) :=
  ⟨(C14_file_lock_registry plainPaths defaultWorld
      (New_sound "" none itemCodec)).2.1
      [Op.SetEx 3 "a" (some 1) 0, Op.Get "b" (some 0),
       Op.GC (fun _ => 9) [{ path := "kvs", isDir := true },
                           { path := "kvs/a.json" }]]
      (by
        intro op hop
        simp only [List.mem_cons, List.mem_singleton, List.not_mem_nil,
          or_false] at hop
        rcases hop with rfl | rfl | rfl <;> exact fun h => Op.noConfusion h),
   (C14_file_lock_registry plainPaths defaultWorld
      (New_sound "" none itemCodec)).2.2.2.1 "a"
      (by
        rintro lock ⟨locks, h, hl⟩
        have h0 : defaultWorld.store.fileLocks = some ∅ := rfl
        rw [h0] at h
        cases h
        rw [AList.lookup_empty] at hl
        cases hl)⟩

/-- The registry after `SetEx("a", 1)` and `Get("b", &x)` on the new store,
evaluated: "a" holds the lock object 0 and "b" the lock object 1. -/
theorem registry_example :
    ∃ w1 : World Nat,
      run plainPaths defaultWorld
          [Op.SetEx 3 "a" (some 1) 0, Op.Get "b" (some 0)] = .ok w1 ∧
      w1.store.registered "a" 0 ∧ w1.store.registered "b" 1 ∧
      w1.store.allocated = 2 :=
  ⟨_, rfl, ⟨_, rfl, rfl⟩, ⟨_, rfl, rfl⟩, rfl⟩

end file

/-! ## The file store: the sweep -/

namespace file

theorem prepFileLock_spec {V : Type} (s : Store V) (key : String)
    (locks : GoMap Nat) (h : s.fileLocks = some locks) :
    ∃ (s1 : Store V) (lock : Nat) (locks1 : GoMap Nat),
      s.prepFileLock key = .ok (s1, lock) ∧ s1.fileLocks = some locks1 ∧
      s1.codec = s.codec := by
  cases hl : locks.lookup key with
  | some lock =>
    refine ⟨s, lock, locks, ?_, h, rfl⟩
    simp only [Store.prepFileLock, h, hl]
  | none =>
    refine ⟨{ s with fileLocks := some (locks.insert key s.allocated),
                     allocated := s.allocated + 1 }, s.allocated,
      locks.insert key s.allocated, ?_, rfl, rfl⟩
    simp only [Store.prepFileLock, h, hl]

/-- The visit of a file that is read and decoded: the file is removed when
its Item is expired and left as it is otherwise, and the walk goes on. -/
theorem GC_visit_good {V : Type} (lib : PathLib) (w : World V)
    (locks : GoMap Nat) (h : w.store.fileLocks = some locks) (now : Time)
    (p : String) (data : Bytes) (hr : w.fs.lookup p = some data)
    (hd : (w.store.codec.Unmarshal data { Data := none }).1 = none) :
    ∃ (w1 : World V) (locks1 : GoMap Nat),
      GC.visit lib w now (fileEntry p) = .ok (w1, none) ∧
      w1.store.fileLocks = some locks1 ∧ w1.store.codec = w.store.codec ∧
      w1.fs = if w.expired now p then w.fs.erase p else w.fs := by
  obtain ⟨s1, lock, locks1, hp, ho, hc⟩ := prepFileLock_spec w.store p locks h
  unfold GC.visit
  simp only [fileEntry, hp, ioutil.ReadFile, hr, hc, hd, Bool.false_eq_true,
    if_false, World.expired, os.Remove]
  by_cases hx : (w.store.codec.Unmarshal data { Data := none }).2.IsExpired now = true
  · simp only [hx, if_true]
    exact ⟨_, locks1, rfl, ho, hc, rfl⟩
  · simp only [hx, if_false]
    exact ⟨_, locks1, rfl, ho, hc, rfl⟩

/-- The visit of a file that is not read or not decoded: no file changes and
the walk is answered with the error. -/
theorem GC_visit_bad {V : Type} (lib : PathLib) (w : World V)
    (locks : GoMap Nat) (h : w.store.fileLocks = some locks) (now : Time)
    (p : String)
    (hbad : w.fs.lookup p = none ∨
      ∃ data e, w.fs.lookup p = some data ∧
        (w.store.codec.Unmarshal data { Data := none }).1 = some e) :
    ∃ (w1 : World V) (e : GoError),
      GC.visit lib w now (fileEntry p) = .ok (w1, some e) ∧ w1.fs = w.fs := by
  obtain ⟨s1, lock, locks1, hp, ho, hc⟩ := prepFileLock_spec w.store p locks h
  unfold GC.visit
  rcases hbad with hr | ⟨data, e, hr, hd⟩
  · simp only [fileEntry, hp, ioutil.ReadFile, hr, Bool.false_eq_true, if_false]
    exact ⟨_, _, rfl, rfl⟩
  · simp only [fileEntry, hp, ioutil.ReadFile, hr, hc, hd, Bool.false_eq_true,
      if_false]
    exact ⟨_, _, rfl, rfl⟩

theorem expired_congr {V : Type} (w w1 : World V) (now : Time) (p : String)
    (hc : w1.store.codec = w.store.codec)
    (hl : w1.fs.lookup p = w.fs.lookup p) :
    w1.expired now p = w.expired now p := by
  unfold World.expired
  rw [hl, hc]

/-- The walk over files that are all read and decoded, each reached once:
it ends without error, has removed exactly the files among them whose Item
was expired when it was reached, and has changed no other file. -/
theorem GC_walk_good {V : Type} (lib : PathLib) (clock : String → Time)
    (files : List String) :
    ∀ (w : World V) (locks : GoMap Nat), w.store.fileLocks = some locks →
      files.Nodup →
      (∀ p ∈ files, ∃ data, w.fs.lookup p = some data ∧
        (w.store.codec.Unmarshal data { Data := none }).1 = none) →
      ∃ (w1 : World V) (locks1 : GoMap Nat),
        GC.walk lib clock w (files.map fileEntry) = .ok (w1, none) ∧
        w1.store.fileLocks = some locks1 ∧ w1.store.codec = w.store.codec ∧
        ∀ p, w1.fs.lookup p =
          if p ∈ files ∧ w.expired (clock p) p = true then none
          else w.fs.lookup p := by
  induction files with
  | nil =>
    intro w locks h _ _
    exact ⟨w, locks, rfl, h, rfl, fun p => by simp⟩
  | cons f fs ih =>
    intro w locks h hnd hgood
    obtain ⟨data, hr, hd⟩ := hgood f (List.mem_cons_self _ _)
    obtain ⟨w1, locks1, hv, ho, hc, hfs⟩ :=
      GC_visit_good lib w locks h (clock f) f data hr hd
    have hnf : f ∉ fs := (List.nodup_cons.1 hnd).1
    have hlook : ∀ p, p ≠ f → w1.fs.lookup p = w.fs.lookup p := by
      intro p hp
      rw [hfs]
      split_ifs
      · exact AList.lookup_erase_ne hp
      · rfl
    obtain ⟨w2, locks2, hw2, ho2, hc2, hfs2⟩ := ih w1 locks1 ho
      (List.nodup_cons.1 hnd).2 (by
        intro p hp
        have hpf : p ≠ f := fun hh => hnf (hh ▸ hp)
        obtain ⟨d, hrd, hdd⟩ := hgood p (List.mem_cons_of_mem _ hp)
        exact ⟨d, by rw [hlook p hpf]; exact hrd, by rw [hc]; exact hdd⟩)
    refine ⟨w2, locks2, ?_, ho2, by rw [hc2, hc], ?_⟩
    · have hfe : (fileEntry f).path = f := rfl
      simp only [List.map_cons, GC.walk, hfe, hv]
      exact hw2
    · intro p
      rw [hfs2 p]
      by_cases hpf : p = f
      · subst hpf
        have h1 : ¬ (p ∈ fs ∧ w1.expired (clock p) p = true) := fun hh => hnf hh.1
        rw [if_neg h1, hfs]
        by_cases hx : w.expired (clock p) p = true
        · rw [if_pos hx, if_pos ⟨List.mem_cons_self _ _, hx⟩]
          exact AList.lookup_erase p w.fs
        · rw [if_neg hx, if_neg (fun hh => hx hh.2)]
      · have hex := expired_congr w w1 (clock p) p hc (hlook p hpf)
        rw [hex, hlook p hpf]
        have hiff : (p ∈ fs ∧ w.expired (clock p) p = true) ↔
            (p ∈ f :: fs ∧ w.expired (clock p) p = true) := by
          simp [hpf]
        by_cases hq : p ∈ fs ∧ w.expired (clock p) p = true
        · rw [if_pos hq, if_pos (hiff.1 hq)]
        · rw [if_neg hq, if_neg (fun hh => hq (hiff.2 hh))]

theorem GC_walk_append {V : Type} (lib : PathLib) (clock : String → Time)
    (es1 : List WalkEntry) :
    ∀ (w w1 : World V) (es2 : List WalkEntry),
      GC.walk lib clock w es1 = .ok (w1, none) →
      GC.walk lib clock w (es1 ++ es2) = GC.walk lib clock w1 es2 := by
  induction es1 with
  | nil =>
    intro w w1 es2 h
    simp only [GC.walk, Except.ok.injEq, Prod.mk.injEq, and_true] at h
    subst h
    rfl
  | cons e es ih =>
    intro w w1 es2 h
    simp only [List.cons_append, GC.walk] at h ⊢
    cases hv : GC.visit lib w (clock e.path) e with
    | error p => rw [hv] at h; cases h
    | ok r =>
      obtain ⟨wa, err⟩ := r
      rw [hv] at h
      cases err with
      | some x => simp at h
      | none =>
        simp only at h ⊢
        exact ih wa w1 es2 h

end file

namespace file

/-- C16: the sweep of the file store over the regular files its walk reaches,
each once, on a store that is not closed: when the files of `pre` are all
read and decoded and the next file `bad` is not read or not decoded, the
sweep returns having removed every file of `pre` whose Item was expired
when it was reached and left the other files of `pre` as they were; it
stopped at `bad`, so every file of `post`, later in the walk, is left in
place whether its Item is expired or not, as is every file outside `pre`.
A walk without such a file handles every file it reaches in this way. -/
theorem C16_file_gc_stops_at_first_failure {V : Type} (lib : PathLib)
    (w : World V) (locks : GoMap Nat) (clock : String → Time)
    (pre post : List String) (bad : String)
    (hopen : w.store.fileLocks = some locks)
    (hnodup : (pre ++ bad :: post).Nodup)
    (hgood : ∀ p ∈ pre, ∃ data, w.fs.lookup p = some data ∧
      (w.store.codec.Unmarshal data { Data := none }).1 = none)
    (hbad : w.fs.lookup bad = none ∨
      ∃ data e, w.fs.lookup bad = some data ∧
        (w.store.codec.Unmarshal data { Data := none }).1 = some e) :
    (∃ w1 : World V,
      GC lib w clock ((pre ++ bad :: post).map fileEntry) = .ok w1 ∧
      (∀ p ∈ pre, w.expired (clock p) p = true → w1.fs.lookup p = none) ∧
      (∀ p ∈ pre, w.expired (clock p) p = false →
        w1.fs.lookup p = w.fs.lookup p) ∧
      (∀ p ∈ post, w1.fs.lookup p = w.fs.lookup p) ∧
      (∀ p, p ∉ pre → w1.fs.lookup p = w.fs.lookup p)) ∧
    (∃ w2 : World V, GC lib w clock (pre.map fileEntry) = .ok w2 ∧
      (∀ p ∈ pre, w.expired (clock p) p = true → w2.fs.lookup p = none) ∧
      (∀ p ∈ pre, w.expired (clock p) p = false →
        w2.fs.lookup p = w.fs.lookup p) ∧
      (∀ p, p ∉ pre → w2.fs.lookup p = w.fs.lookup p)) := by
  have hnd := List.nodup_append.1 hnodup
  obtain ⟨w1, locks1, hw, ho, hc, hfs⟩ :=
    GC_walk_good lib clock pre w locks hopen hnd.1 hgood
  have hbadpre : bad ∉ pre := fun hb =>
    hnd.2.2 hb (List.mem_cons_self _ _)
  have hbad1 : w1.fs.lookup bad = none ∨
      ∃ data e, w1.fs.lookup bad = some data ∧
        (w1.store.codec.Unmarshal data { Data := none }).1 = some e := by
    have hl : w1.fs.lookup bad = w.fs.lookup bad := by
      rw [hfs bad, if_neg (fun hh => hbadpre hh.1)]
    rw [hl, hc]
    exact hbad
  obtain ⟨w2, e, hv, hfs2⟩ :=
    GC_visit_bad lib w1 locks1 ho (clock bad) bad hbad1
  have hin : ∀ p ∈ pre, w.expired (clock p) p = true → w1.fs.lookup p = none := by
    intro p hp hx
    rw [hfs p, if_pos ⟨hp, hx⟩]
  have hkeep : ∀ p ∈ pre, w.expired (clock p) p = false →
      w1.fs.lookup p = w.fs.lookup p := by
    intro p _ hx
    rw [hfs p, if_neg (fun hh => by rw [hx] at hh; cases hh.2)]
  have hout : ∀ p, p ∉ pre → w1.fs.lookup p = w.fs.lookup p := by
    intro p hp
    rw [hfs p, if_neg (fun hh => hp hh.1)]
  constructor
  · refine ⟨w2, ?_, ?_, ?_, ?_, ?_⟩
    · have hwalk : GC.walk lib clock w ((pre ++ bad :: post).map fileEntry) =
          .ok (w2, some e) := by
        rw [List.map_append, GC_walk_append lib clock _ w w1 _ hw]
        have hfe : (fileEntry bad).path = bad := rfl
        simp only [List.map_cons, GC.walk, hfe, hv]
      simp only [GC, hwalk]
    · intro p hp hx
      rw [hfs2]
      exact hin p hp hx
    · intro p hp hx
      rw [hfs2]
      exact hkeep p hp hx
    · intro p hp
      rw [hfs2]
      exact hout p (fun hh => hnd.2.2 hh (List.mem_cons_of_mem _ hp))
    · intro p hp
      rw [hfs2]
      exact hout p hp
  · exact ⟨w1, by simp only [GC, hw], hin, hkeep, hout⟩

/-- C16 on a store with the files "a", "b", "c" reached in this order at time
5: "a" is expired and removed; "b" is not decoded and stops the sweep; "c",
expired too, stays. -/
theorem C16_file_gc_stops_at_first_failure_witness :
    (∃ w1 : World Nat,
      GC plainPaths sweepWorld (fun _ => 5)
        ((["kvs/a.json"] ++ "kvs/b.json" :: ["kvs/c.json"]).map fileEntry) =
        .ok w1 ∧
      (∀ p ∈ ["kvs/a.json"], sweepWorld.expired ((fun _ => 5) p) p = true →
        w1.fs.lookup p = none) ∧
      (∀ p ∈ ["kvs/a.json"], sweepWorld.expired ((fun _ => 5) p) p = false →
        w1.fs.lookup p = sweepWorld.fs.lookup p) ∧
      (∀ p ∈ ["kvs/c.json"], w1.fs.lookup p = sweepWorld.fs.lookup p) ∧
      (∀ p, p ∉ ["kvs/a.json"] → w1.fs.lookup p = sweepWorld.fs.lookup p)) ∧
    (∃ w2 : World Nat,
      GC plainPaths sweepWorld (fun _ => 5) (["kvs/a.json"].map fileEntry) =
        .ok w2 ∧
      (∀ p ∈ ["kvs/a.json"], sweepWorld.expired ((fun _ => 5) p) p = true →
        w2.fs.lookup p = none) ∧
      (∀ p ∈ ["kvs/a.json"], sweepWorld.expired ((fun _ => 5) p) p = false →
        w2.fs.lookup p = sweepWorld.fs.lookup p) ∧
      (∀ p, p ∉ ["kvs/a.json"] → w2.fs.lookup p = sweepWorld.fs.lookup p)) :=
  C16_file_gc_stops_at_first_failure plainPaths sweepWorld ∅ (fun _ => 5)
    ["kvs/a.json"] ["kvs/c.json"] "kvs/b.json" rfl (by decide)
    (by
      intro p hp
      rw [List.mem_singleton] at hp
      subst hp
      exact ⟨[0, 0, 1], rfl, rfl⟩)
    (Or.inr ⟨[7], errors.New "item: invalid byte", rfl, rfl⟩)

/-- The sweep of the sample store, evaluated: "a" is gone, "b" and "c" are
still there, though the Item of "c" expired at time 1. -/
theorem sweepWorld_GC :
    ∃ w1 : World Nat,
      GC plainPaths sweepWorld (fun _ => 5)
        [fileEntry "kvs/a.json", fileEntry "kvs/b.json",
         fileEntry "kvs/c.json"] = .ok w1 ∧
      w1.fs.lookup "kvs/a.json" = none ∧
      w1.fs.lookup "kvs/b.json" = some [7] ∧
      w1.fs.lookup "kvs/c.json" = some [0, 1] ∧
      sweepWorld.expired 5 "kvs/c.json" = true :=
  ⟨_, rfl, rfl, rfl, rfl, rfl⟩

end file

/-! ## filepath.Clean on a directory and a file name -/

namespace filepath

theorem splitSlash_ne_nil (l : List Char) : splitSlash l ≠ [] := by
  cases l with
  | nil => simp [splitSlash]
  | cons c cs =>
    unfold splitSlash
    split_ifs
    · simp
    · split <;> simp

theorem splitSlash_append (a b : List Char) :
    splitSlash (a ++ '/' :: b) = splitSlash a ++ splitSlash b := by
  induction a with
  | nil => simp [splitSlash]
  | cons c cs ih =>
    by_cases hc : c = '/'
    · simp [splitSlash, hc, ih]
    · simp only [List.cons_append, splitSlash, hc, if_false]
      show (match splitSlash (cs ++ '/' :: b) with
        | [] => [[c]]
        | x :: xs => (c :: x) :: xs) = _
      rw [ih]
      cases hs : splitSlash cs with
      | nil => exact absurd hs (splitSlash_ne_nil cs)
      | cons x xs => simp

theorem splitSlash_of_not_mem (n : List Char) (h : '/' ∉ n) :
    splitSlash n = [n] := by
  induction n with
  | nil => rfl
  | cons c cs ih =>
    have hc : c ≠ '/' := fun hh => h (hh ▸ List.mem_cons_self _ _)
    have hcs : '/' ∉ cs := fun hh => h (List.mem_cons_of_mem _ hh)
    simp [splitSlash, hc, ih hcs]

theorem not_mem_of_mem_splitSlash (l x : List Char) (h : x ∈ splitSlash l) :
    '/' ∉ x := by
  induction l generalizing x with
  | nil =>
    simp only [splitSlash, List.mem_singleton] at h
    subst h
    simp
  | cons c cs ih =>
    unfold splitSlash at h
    by_cases hc : c = '/'
    · rw [if_pos hc] at h
      rcases List.mem_cons.1 h with rfl | h1
      · simp
      · exact ih x h1
    · rw [if_neg hc] at h
      cases hs : splitSlash cs with
      | nil => exact absurd hs (splitSlash_ne_nil cs)
      | cons y ys =>
        rw [hs] at h ih
        simp only at h
        rcases List.mem_cons.1 h with rfl | h1
        · intro hm
          rcases List.mem_cons.1 hm with h2 | h2
          · exact hc h2.symm
          · exact ih y (List.mem_cons_self _ _) h2
        · exact ih x (List.mem_cons_of_mem _ h1)

theorem joinSlash_append_singleton (out : List (List Char)) (n : List Char)
    (h : out ≠ []) : joinSlash (out ++ [n]) = joinSlash out ++ '/' :: n := by
  induction out with
  | nil => exact absurd rfl h
  | cons x xs ih =>
    cases xs with
    | nil => simp [joinSlash]
    | cons y ys =>
      have h1 := ih (by simp)
      show x ++ '/' :: joinSlash ((y :: ys) ++ [n]) = _
      rw [h1]
      simp [joinSlash]

/-- The elements `Clean` writes are not empty, are not `.` and hold no
separator. -/
theorem step_inv (rooted : Bool) (out : List (List Char)) (elem : List Char)
    (he : '/' ∉ elem)
    (hout : ∀ x ∈ out, x ≠ [] ∧ x ≠ ['.'] ∧ '/' ∉ x) :
    ∀ x ∈ Clean.step rooted out elem, x ≠ [] ∧ x ≠ ['.'] ∧ '/' ∉ x := by
  have happ : elem ≠ [] → elem ≠ ['.'] →
      ∀ x ∈ out ++ [elem], x ≠ [] ∧ x ≠ ['.'] ∧ '/' ∉ x := by
    intro h1 h2 x hx
    rcases List.mem_append.1 hx with h | h
    · exact hout x h
    · rw [List.mem_singleton] at h
      subst h
      exact ⟨h1, h2, he⟩
  unfold Clean.step
  by_cases h1 : elem = []
  · rw [if_pos h1]
    exact hout
  rw [if_neg h1]
  by_cases h2 : elem = ['.']
  · rw [if_pos h2]
    exact hout
  rw [if_neg h2]
  by_cases h3 : elem = ['.', '.']
  · rw [if_pos h3]
    cases hl : out.getLast? with
    | none =>
      simp only
      by_cases hr : rooted = true
      · rw [if_pos hr]
        exact hout
      · rw [if_neg hr]
        exact happ h1 h2
    | some last =>
      simp only
      by_cases h4 : last = ['.', '.']
      · rw [if_pos h4]
        exact happ h1 h2
      · rw [if_neg h4]
        intro x hx
        exact hout x (List.mem_of_mem_dropLast hx)
  · rw [if_neg h3]
    exact happ h1 h2

theorem foldl_step_inv (rooted : Bool) (elems : List (List Char)) :
    ∀ out : List (List Char), (∀ e ∈ elems, '/' ∉ e) →
      (∀ x ∈ out, x ≠ [] ∧ x ≠ ['.'] ∧ '/' ∉ x) →
      ∀ x ∈ elems.foldl (Clean.step rooted) out,
        x ≠ [] ∧ x ≠ ['.'] ∧ '/' ∉ x := by
  induction elems with
  | nil => intro out _ h; exact h
  | cons e es ih =>
    intro out he hout
    rw [List.foldl_cons]
    exact ih _ (fun e1 h1 => he e1 (List.mem_cons_of_mem _ h1))
      (step_inv rooted out e (he e (List.mem_cons_self _ _)) hout)

theorem joinSlash_ne (out : List (List Char)) (h : out ≠ [])
    (hout : ∀ x ∈ out, x ≠ [] ∧ x ≠ ['.'] ∧ '/' ∉ x) :
    joinSlash out ≠ [] ∧ joinSlash out ≠ ['.'] ∧ joinSlash out ≠ ['/'] := by
  cases out with
  | nil => exact absurd rfl h
  | cons x xs =>
    obtain ⟨hx1, hx2, hx3⟩ := hout x (List.mem_cons_self _ _)
    cases xs with
    | nil =>
      refine ⟨hx1, hx2, ?_⟩
      intro hh
      simp only [joinSlash] at hh
      rw [hh] at hx3
      simp at hx3
    | cons y ys =>
      simp only [joinSlash]
      cases x with
      | nil => exact absurd rfl hx1
      | cons c cs => simp

end filepath

namespace filepath

theorem data_ne_of_ne {s t : String} (h : s ≠ t) : s.data ≠ t.data :=
  fun hh => h (String.ext hh)

/-- Cleaning a directory followed by a separator and a file name gives the
path of that name directly inside the cleaned directory. -/
theorem Clean_join (d name : String) (hd : d ≠ "") (hn : isFileName name) :
    Clean (d ++ "/" ++ name) = inDir (Clean d) name := by
  obtain ⟨hn1, hn2, hn3, hn4⟩ := hn
  have hdl : d.data ≠ [] := data_ne_of_ne hd
  have h1 : name.data ≠ [] := data_ne_of_ne hn1
  have h2 : name.data ≠ ['.'] := data_ne_of_ne hn2
  have h3 : name.data ≠ ['.', '.'] := data_ne_of_ne hn3
  have hdata : (d ++ "/" ++ name).data = d.data ++ '/' :: name.data := by
    simp [String.data_append]
  have hne : d ++ "/" ++ name ≠ "" := by
    intro hh
    have := congrArg String.data hh
    rw [hdata] at this
    simp at this
  have hhead : (d.data ++ '/' :: name.data).head? = d.data.head? := by
    cases hx : d.data with
    | nil => exact absurd hx hdl
    | cons c cs => rfl
  have hsplit : splitSlash (d.data ++ '/' :: name.data) =
      splitSlash d.data ++ [name.data] := by
    rw [splitSlash_append, splitSlash_of_not_mem _ hn4]
  have hstep : ∀ (r : Bool) (out : List (List Char)),
      Clean.step r out name.data = out ++ [name.data] := by
    intro r out
    simp [Clean.step, h1, h2, h3]
  have hinv := foldl_step_inv (decide (d.data.head? = some '/'))
    (splitSlash d.data) []
    (fun e he => not_mem_of_mem_splitSlash d.data e he)
    (by intro x hx; cases hx)
  unfold Clean
  rw [if_neg hne, if_neg hd]
  simp only [hdata, hhead, hsplit, List.foldl_append, List.foldl_cons,
    List.foldl_nil, hstep]
  generalize hout : (splitSlash d.data).foldl
    (Clean.step (decide (d.data.head? = some '/'))) [] = out at hinv ⊢
  have hnn : out ++ [name.data] ≠ [] := by simp
  rw [if_neg hnn]
  by_cases ho : out = []
  · subst ho
    rw [if_pos rfl]
    by_cases hr : d.data.head? = some '/'
    · simp only [hr, decide_True, if_true, List.nil_append, joinSlash]
      unfold inDir
      rw [if_pos rfl]
      apply String.ext
      simp [String.data_append]
    · simp only [hr, decide_False, Bool.false_eq_true, if_false,
        List.nil_append, joinSlash]
      unfold inDir
      rw [if_neg (by decide), if_pos rfl]
  · rw [if_neg ho, joinSlash_append_singleton out _ ho]
    obtain ⟨j1, j2, j3⟩ := joinSlash_ne out ho hinv
    unfold inDir
    by_cases hr : d.data.head? = some '/'
    · simp only [hr, decide_True, if_true]
      have c1 : String.mk (['/'] ++ joinSlash out) ≠ "/" := by
        intro hh
        have := congrArg String.data hh
        simp at this
        exact j1 this
      have c2 : String.mk (['/'] ++ joinSlash out) ≠ "." := by
        intro hh
        have := congrArg String.data hh
        simp at this
      rw [if_neg c1, if_neg c2]
      apply String.ext
      simp [String.data_append]
    · simp only [hr, decide_False, Bool.false_eq_true, if_false,
        List.nil_append]
      have c1 : String.mk (joinSlash out) ≠ "/" := by
        intro hh
        have := congrArg String.data hh
        exact j3 this
      have c2 : String.mk (joinSlash out) ≠ "." := by
        intro hh
        have := congrArg String.data hh
        exact j2 this
      rw [if_neg c1, if_neg c2]
      apply String.ext
      simp [String.data_append]

/-- Cleaning a separator followed by a file name, the path built on the
directory "", gives the path of that name in the root. -/
theorem Clean_root_join (name : String) (hn : isFileName name) :
    Clean ("" ++ "/" ++ name) = "/" ++ name := by
  obtain ⟨hn1, hn2, hn3, hn4⟩ := hn
  have h1 : name.data ≠ [] := data_ne_of_ne hn1
  have h2 : name.data ≠ ['.'] := data_ne_of_ne hn2
  have h3 : name.data ≠ ['.', '.'] := data_ne_of_ne hn3
  have hdata : ("" ++ "/" ++ name).data = '/' :: name.data := by
    simp [String.data_append]
  have hne : "" ++ "/" ++ name ≠ "" := by
    intro hh
    have := congrArg String.data hh
    rw [hdata] at this
    simp at this
  have hsplit : splitSlash ('/' :: name.data) = [[], name.data] := by
    simp [splitSlash, splitSlash_of_not_mem _ hn4]
  unfold Clean
  rw [if_neg hne]
  simp only [hdata, hsplit, List.head?_cons, decide_True, List.foldl_cons,
    List.foldl_nil]
  have s1 : Clean.step true [] [] = [] := by simp [Clean.step]
  have s2 : Clean.step true [] name.data = [name.data] := by
    simp [Clean.step, h1, h2, h3]
  rw [s1, s2]
  simp only [List.cons_ne_nil, if_false, if_true, joinSlash]
  apply String.ext
  simp [String.data_append]

end filepath

/-! ## The bytes of a string -/

namespace url

theorem u8_or (a b : UInt8) : (a ||| b).toNat = a.toNat ||| b.toNat := by
  show (a.toBitVec ||| b.toBitVec).toNat = _
  simp [UInt8.toNat]
theorem u8_and (a b : UInt8) : (a &&& b).toNat = a.toNat &&& b.toNat := by
  show (a.toBitVec &&& b.toBitVec).toNat = _
  simp [UInt8.toNat]
theorem u32_toUInt8 (v : UInt32) : v.toUInt8.toNat = v.toNat % 256 := by
  simp [UInt32.toUInt8, Nat.toUInt8, UInt8.ofNat, UInt8.toNat]
theorem u32_shr6 (v : UInt32) : (v >>> 6).toNat = v.toNat / 64 := by
  show (v.toBitVec >>> (UInt32.mod 6 32).toBitVec).toNat = _
  have h : (UInt32.mod 6 32).toBitVec = 6#32 := by decide
  rw [h]
  simp [UInt32.toNat, Nat.shiftRight_eq_div_pow]
theorem u32_shr12 (v : UInt32) : (v >>> 12).toNat = v.toNat / 4096 := by
  show (v.toBitVec >>> (UInt32.mod 12 32).toBitVec).toNat = _
  have h : (UInt32.mod 12 32).toBitVec = 12#32 := by decide
  rw [h]
  simp [UInt32.toNat, Nat.shiftRight_eq_div_pow]
theorem u32_shr18 (v : UInt32) : (v >>> 18).toNat = v.toNat / 262144 := by
  show (v.toBitVec >>> (UInt32.mod 18 32).toBitVec).toNat = _
  have h : (UInt32.mod 18 32).toBitVec = 18#32 := by decide
  rw [h]
  simp [UInt32.toNat, Nat.shiftRight_eq_div_pow]
set_option maxRecDepth 100000 in
theorem nat_bits1 : ∀ y < 256, (y &&& 63 ||| 128) = 128 + y % 64 := by decide
set_option maxRecDepth 100000 in
theorem nat_bits2 : ∀ y < 256, (y &&& 31 ||| 192) = 192 + y % 32 := by decide
set_option maxRecDepth 100000 in
theorem nat_bits3 : ∀ y < 256, (y &&& 15 ||| 224) = 224 + y % 16 := by decide
set_option maxRecDepth 100000 in
theorem nat_bits4 : ∀ y < 256, (y &&& 7 ||| 240) = 240 + y % 8 := by decide

theorem cont_byte (v : UInt32) :
    (v.toUInt8 &&& 0x3f ||| 0x80).toNat = 128 + v.toNat % 64 := by
  rw [u8_or, u8_and, u32_toUInt8]
  have h := nat_bits1 (v.toNat % 256) (Nat.mod_lt _ (by decide))
  have e1 : (0x3f : UInt8).toNat = 63 := by decide
  have e2 : (0x80 : UInt8).toNat = 128 := by decide
  rw [e1, e2, h]
  omega

theorem lead2 (v : UInt32) :
    (v.toUInt8 &&& 0x1f ||| 0xc0).toNat = 192 + v.toNat % 32 := by
  rw [u8_or, u8_and, u32_toUInt8]
  have h := nat_bits2 (v.toNat % 256) (Nat.mod_lt _ (by decide))
  have e1 : (0x1f : UInt8).toNat = 31 := by decide
  have e2 : (0xc0 : UInt8).toNat = 192 := by decide
  rw [e1, e2, h]
  omega

theorem lead3 (v : UInt32) :
    (v.toUInt8 &&& 0x0f ||| 0xe0).toNat = 224 + v.toNat % 16 := by
  rw [u8_or, u8_and, u32_toUInt8]
  have h := nat_bits3 (v.toNat % 256) (Nat.mod_lt _ (by decide))
  have e1 : (0x0f : UInt8).toNat = 15 := by decide
  have e2 : (0xe0 : UInt8).toNat = 224 := by decide
  rw [e1, e2, h]
  omega

theorem lead4 (v : UInt32) :
    (v.toUInt8 &&& 0x07 ||| 0xf0).toNat = 240 + v.toNat % 8 := by
  rw [u8_or, u8_and, u32_toUInt8]
  have h := nat_bits4 (v.toNat % 256) (Nat.mod_lt _ (by decide))
  have e1 : (0x07 : UInt8).toNat = 7 := by decide
  have e2 : (0xf0 : UInt8).toNat = 240 := by decide
  rw [e1, e2, h]
  omega

theorem u32_le_iff (v : UInt32) (n : Nat) (hn : n < 4294967296) :
    v ≤ UInt32.ofNat n ↔ v.toNat ≤ n := by
  show v.toBitVec ≤ (UInt32.ofNat n).toBitVec ↔ _
  simp [UInt32.ofNat, UInt32.toNat, BitVec.le_def, Nat.mod_eq_of_lt hn]

theorem utf8EncodeChar_toNat (c : Char) :
    (String.utf8EncodeChar c).map UInt8.toNat = utf8Bytes c.val.toNat := by
  have h1 : c.val ≤ 0x7f ↔ c.val.toNat ≤ 0x7f := u32_le_iff c.val 0x7f (by decide)
  have h2 : c.val ≤ 0x7ff ↔ c.val.toNat ≤ 0x7ff := u32_le_iff c.val 0x7ff (by decide)
  have h3 : c.val ≤ 0xffff ↔ c.val.toNat ≤ 0xffff := u32_le_iff c.val 0xffff (by decide)
  unfold String.utf8EncodeChar utf8Bytes
  simp only [h1, h2, h3]
  split_ifs with a b d
  · simp only [List.map_cons, List.map_nil, u32_toUInt8]
    congr 1
    omega
  · simp only [List.map_cons, List.map_nil, cont_byte, lead2, u32_shr6]
  · simp only [List.map_cons, List.map_nil, cont_byte, lead3, u32_shr6, u32_shr12]
  · simp only [List.map_cons, List.map_nil, cont_byte, lead4, u32_shr6, u32_shr12, u32_shr18]

theorem utf8Bytes_prefix (n1 n2 : Nat) (r1 r2 : List Nat)
    (h1 : n1 < 0x110000) (h2 : n2 < 0x110000)
    (h : utf8Bytes n1 ++ r1 = utf8Bytes n2 ++ r2) : n1 = n2 ∧ r1 = r2 := by
  unfold utf8Bytes at h
  split_ifs at h <;>
    simp only [List.cons_append, List.nil_append, List.cons.injEq] at h <;>
    (refine ⟨by omega, ?_⟩) <;> (first | exact h.2 | exact h.2.2 | exact h.2.2.2 | exact h.2.2.2.2 | omega)


theorem utf8Bytes_ne_nil (n : Nat) : utf8Bytes n ≠ [] := by
  unfold utf8Bytes
  split_ifs <;> simp

theorem flatMap_injective_of_prefix {α β : Type} (f : α → List β)
    (P : α → Prop) (hne : ∀ a, f a ≠ [])
    (hpre : ∀ a b r1 r2, P a → P b → f a ++ r1 = f b ++ r2 → a = b ∧ r1 = r2) :
    ∀ l1 l2 : List α, (∀ a ∈ l1, P a) → (∀ a ∈ l2, P a) →
      l1.flatMap f = l2.flatMap f → l1 = l2 := by
  intro l1
  induction l1 with
  | nil =>
    intro l2 _ _ h
    cases l2 with
    | nil => rfl
    | cons b bs =>
      simp only [List.flatMap_nil, List.flatMap_cons] at h
      have := List.append_eq_nil.1 h.symm
      exact absurd this.1 (hne b)
  | cons a as ih =>
    intro l2 h1 h2 h
    cases l2 with
    | nil =>
      simp only [List.flatMap_nil, List.flatMap_cons] at h
      have := List.append_eq_nil.1 h
      exact absurd this.1 (hne a)
    | cons b bs =>
      simp only [List.flatMap_cons] at h
      obtain ⟨hab, hr⟩ := hpre a b _ _ (h1 a (List.mem_cons_self _ _))
        (h2 b (List.mem_cons_self _ _)) h
      rw [hab, ih bs (fun x hx => h1 x (List.mem_cons_of_mem _ hx))
        (fun x hx => h2 x (List.mem_cons_of_mem _ hx)) hr]

theorem bytes_eq (s : String) :
    bytes s = s.data.flatMap (fun c => utf8Bytes c.val.toNat) := by
  unfold bytes
  rw [List.map_flatMap]
  congr 1
  funext c
  exact utf8EncodeChar_toNat c

theorem char_toNat_lt (c : Char) : c.val.toNat < 0x110000 := by
  have h := c.valid
  unfold UInt32.isValidChar Nat.isValidChar at h
  omega

/-- Two strings with the same bytes are equal. -/
theorem bytes_injective (s t : String) (h : bytes s = bytes t) : s = t := by
  rw [bytes_eq, bytes_eq] at h
  apply String.ext
  refine flatMap_injective_of_prefix (fun c : Char => utf8Bytes c.val.toNat)
    (fun _ => True) (fun c => utf8Bytes_ne_nil _) ?_ s.data t.data
    (fun _ _ => trivial) (fun _ _ => trivial) h
  intro a b r1 r2 _ _ hh
  obtain ⟨h1, h2⟩ := utf8Bytes_prefix _ _ r1 r2 (char_toNat_lt a)
    (char_toNat_lt b) hh
  exact ⟨Char.ext (UInt32.toNat.inj h1), h2⟩

theorem bytes_lt (s : String) : ∀ n ∈ bytes s, n < 256 := by
  intro n hn
  unfold bytes at hn
  obtain ⟨b, _, hb⟩ := List.mem_map.1 hn
  rw [← hb]
  exact UInt8.toNat_lt_size b

theorem bytes_ne_nil (s : String) (h : s ≠ "") : bytes s ≠ [] := by
  rw [bytes_eq]
  cases hd : s.data with
  | nil => exact absurd (String.ext hd) h
  | cons c cs =>
    simp only [List.flatMap_cons]
    intro hh
    exact utf8Bytes_ne_nil _ (List.append_eq_nil.1 hh).1

end url

/-! ## url.PathEscape: no separator, and one-to-one -/

namespace url

set_option maxRecDepth 100000 in
theorem unescaped_facts : ∀ n < 256, shouldEscape n = false →
    (Char.ofNat n).toNat = n ∧ Char.ofNat n ≠ '%' ∧ Char.ofNat n ≠ '/' := by
  decide

set_option maxRecDepth 100000 in
theorem upperhex_injective : ∀ a < 16, ∀ b < 16,
    upperhex a = upperhex b → a = b := by
  decide

set_option maxRecDepth 100000 in
theorem upperhex_ne_slash : ∀ a < 16, upperhex a ≠ '/' := by
  decide

theorem escapeByte_ne_nil (n : Nat) : escapeByte n ≠ [] := by
  unfold escapeByte
  split_ifs <;> simp

theorem escapeByte_prefix (n1 n2 : Nat) (r1 r2 : List Char) (h1 : n1 < 256)
    (h2 : n2 < 256) (h : escapeByte n1 ++ r1 = escapeByte n2 ++ r2) :
    n1 = n2 ∧ r1 = r2 := by
  unfold escapeByte at h
  cases e1 : shouldEscape n1 <;> cases e2 : shouldEscape n2 <;>
    simp only [e1, e2, Bool.false_eq_true, if_false, if_true,
      List.cons_append, List.nil_append, List.cons.injEq] at h
  · obtain ⟨f1, _, _⟩ := unescaped_facts n1 h1 e1
    obtain ⟨f2, _, _⟩ := unescaped_facts n2 h2 e2
    refine ⟨?_, h.2⟩
    rw [← f1, ← f2, h.1]
  · obtain ⟨_, f1, _⟩ := unescaped_facts n1 h1 e1
    exact absurd h.1 f1
  · obtain ⟨_, f2, _⟩ := unescaped_facts n2 h2 e2
    exact absurd h.1.symm f2
  · obtain ⟨_, ha, hb, hr⟩ := h
    have q1 := upperhex_injective (n1 / 16) (by omega) (n2 / 16) (by omega) ha
    have q2 := upperhex_injective (n1 % 16) (by omega) (n2 % 16) (by omega) hb
    exact ⟨by omega, hr⟩

theorem escapeByte_no_slash (n : Nat) (h : n < 256) : '/' ∉ escapeByte n := by
  unfold escapeByte
  cases e : shouldEscape n
  · obtain ⟨_, _, f⟩ := unescaped_facts n h e
    simp only [Bool.false_eq_true, if_false, List.mem_singleton]
    exact fun hh => f hh.symm
  · simp only [if_true, List.mem_cons, List.mem_singleton, List.not_mem_nil,
      or_false]
    rintro (hh | hh | hh)
    · exact absurd hh (by decide)
    · exact upperhex_ne_slash (n / 16) (by omega) hh.symm
    · exact upperhex_ne_slash (n % 16) (by omega) hh.symm

/-- The escaped form of a key holds no separator. -/
theorem PathEscape_no_slash (k : String) : '/' ∉ (PathEscape k).data := by
  unfold PathEscape
  simp only [List.mem_flatMap, not_exists, not_and]
  intro n hn
  exact escapeByte_no_slash n (bytes_lt k n hn)

/-- The escaped form of a key other than "" is not empty. -/
theorem PathEscape_ne_empty (k : String) (h : k ≠ "") : PathEscape k ≠ "" := by
  intro hh
  have hd := congrArg String.data hh
  unfold PathEscape at hd
  simp only at hd
  cases hb : bytes k with
  | nil => exact bytes_ne_nil k h hb
  | cons b bs =>
    rw [hb, List.flatMap_cons] at hd
    exact escapeByte_ne_nil b (List.append_eq_nil.1 hd).1

/-- Two keys with the same escaped form are equal. -/
theorem PathEscape_injective (k1 k2 : String)
    (h : PathEscape k1 = PathEscape k2) : k1 = k2 := by
  apply bytes_injective
  have hd := congrArg String.data h
  unfold PathEscape at hd
  simp only at hd
  exact flatMap_injective_of_prefix escapeByte (fun n => n < 256)
    escapeByte_ne_nil
    (fun a b r1 r2 ha hb hh => escapeByte_prefix a b r1 r2 ha hb hh)
    (bytes k1) (bytes k2) (bytes_lt k1) (bytes_lt k2) hd

end url

/-! ## The file store: the path of a key -/

namespace file

theorem filePath_eq {V : Type} (lib : PathLib) (s : Store V) (key : String) :
    s.filePath lib key = lib.Clean (s.directory ++ "/" ++ s.fileName key) := by
  unfold Store.filePath Store.fileName
  rfl

theorem New_directory_ne {V : Type} (d : String) (e : Option String)
    (codec : Codec (Item V)) : (New d e codec).directory ≠ "" := by
  unfold New
  simp only
  split_ifs with h
  · decide
  · exact h

/-- The file name of a key is a file name, when the extension holds no
separator and, with the empty extension, the key is not "." or "..". -/
theorem fileName_isFileName {V : Type} (s : Store V) (k : String) (hk : k ≠ "")
    (hslash : '/' ∉ s.filenameExtension.data)
    (hdots : s.filenameExtension = "" → k ≠ "." ∧ k ≠ "..") :
    filepath.isFileName (s.fileName (url.PathEscape k)) := by
  have hne := url.PathEscape_ne_empty k hk
  have hns := url.PathEscape_no_slash k
  have hdne : (url.PathEscape k).data ≠ [] := filepath.data_ne_of_ne hne
  unfold Store.fileName
  by_cases he : s.filenameExtension = ""
  · simp only [he, ne_eq, not_true_eq_false, if_false]
    obtain ⟨h1, h2⟩ := hdots he
    refine ⟨hne, ?_, ?_, hns⟩
    · intro hh
      apply h1
      apply url.PathEscape_injective
      rw [hh]
      decide
    · intro hh
      apply h2
      apply url.PathEscape_injective
      rw [hh]
      decide
  · simp only [ne_eq, he, not_false_eq_true, if_true]
    have hed : s.filenameExtension.data ≠ [] := filepath.data_ne_of_ne he
    have hdata : (url.PathEscape k ++ "." ++ s.filenameExtension).data =
        (url.PathEscape k).data ++ '.' :: s.filenameExtension.data := by
      simp [String.data_append]
    have hlen : 3 ≤ (url.PathEscape k ++ "." ++ s.filenameExtension).data.length := by
      rw [hdata]
      have l1 : 0 < (url.PathEscape k).data.length := List.length_pos.2 hdne
      have l2 : 0 < s.filenameExtension.data.length := List.length_pos.2 hed
      simp only [List.length_append, List.length_cons]
      omega
    refine ⟨?_, ?_, ?_, ?_⟩
    · intro hh
      rw [hh] at hlen
      simp at hlen
    · intro hh
      rw [hh] at hlen
      simp at hlen
    · intro hh
      rw [hh] at hlen
      simp at hlen
    · rw [hdata]
      simp only [List.mem_append, List.mem_cons, not_or]
      exact ⟨hns, by decide, hslash⟩

/-- C12, the claim as stated fails: on the directory "kvs" with the empty
extension the key ".." has the path ".", the parent of the directory, and
the key "." has the path "kvs", the directory itself; and with the
extension "x/.." the key "a" has the path "kvs" too. None is the path of
the file of that name directly inside "kvs". -/
theorem C12_file_path_leaves_directory_counterexample :
    (New "kvs" (some "") itemCodec).filePath goPaths (goPaths.PathEscape "..") =
      "." ∧
    (New "kvs" (some "") itemCodec).filePath goPaths (goPaths.PathEscape ".") =
      "kvs" ∧
    (New "kvs" (some "x/..") itemCodec).filePath goPaths
      (goPaths.PathEscape "a") = "kvs" ∧
    (New "kvs" (some "") itemCodec).filePath goPaths (goPaths.PathEscape "..") ≠
      filepath.inDir (filepath.Clean "kvs") (url.PathEscape "..") ∧
    (New "kvs" (some "") itemCodec).filePath goPaths (goPaths.PathEscape ".") ≠
      filepath.inDir (filepath.Clean "kvs") (url.PathEscape ".") ∧
    (New "kvs" (some "x/..") itemCodec).filePath goPaths
        (goPaths.PathEscape "a") ≠
      filepath.inDir (filepath.Clean "kvs") (url.PathEscape "a" ++ "." ++ "x/..") := by
  decide

/-- C12 as amended: in the file store, for every key other than "", every
configured directory and every extension setting that holds no separator
(the empty extension included), the key being neither "." nor ".." when
the extension is empty: the path that SetEx, Get, Has and Delete use for
the key is the path of the entry directly inside the cleaned directory
whose name is PathEscape(k) when the extension is "" and PathEscape(k),
".", and the extension otherwise; that name is one path element and is
neither "." nor "..". -/
theorem C12_file_path_in_directory {V : Type} (d : String) (e : Option String)
    (codec : Codec (Item V)) (k : String) (hk : k ≠ "")
    (hslash : '/' ∉ (New d e codec).filenameExtension.data)
    (hdots : (New d e codec).filenameExtension = "" → k ≠ "." ∧ k ≠ "..") :
    (New d e codec).filePath goPaths (goPaths.PathEscape k) =
      filepath.inDir (filepath.Clean (New d e codec).directory)
        ((New d e codec).fileName (url.PathEscape k)) ∧
    (New d e codec).fileName (url.PathEscape k) =
      (if (New d e codec).filenameExtension = "" then url.PathEscape k
       else url.PathEscape k ++ "." ++ (New d e codec).filenameExtension) ∧
    filepath.isFileName ((New d e codec).fileName (url.PathEscape k)) := by
  have hfn := fileName_isFileName (New d e codec) k hk hslash hdots
  refine ⟨?_, ?_, hfn⟩
  · rw [filePath_eq]
    exact filepath.Clean_join _ _ (New_directory_ne d e codec) hfn
  · unfold Store.fileName
    split_ifs <;> first | rfl | contradiction

/-- C12 as amended, on the default directory and extension with the key
"22231028": the path is "kvs/22231028.json". -/
theorem C12_file_path_in_directory_witness :
    (New "" none itemCodec).filePath goPaths (goPaths.PathEscape "22231028") =
      filepath.inDir (filepath.Clean (New "" none itemCodec).directory)
        ((New "" none itemCodec).fileName (url.PathEscape "22231028")) ∧
    (New "" none itemCodec).fileName (url.PathEscape "22231028") =
      (if (New "" none itemCodec).filenameExtension = "" then
        url.PathEscape "22231028"
       else url.PathEscape "22231028" ++ "." ++
        (New "" none itemCodec).filenameExtension) ∧
    filepath.isFileName
      ((New "" none itemCodec).fileName (url.PathEscape "22231028")) :=
  C12_file_path_in_directory "" none itemCodec "22231028" (by decide)
    (by decide) (by decide)

/-- The path of the key "22231028" on the default directory and extension. -/
theorem default_path_example :
    (New "" none itemCodec).filePath goPaths (goPaths.PathEscape "22231028") =
      "kvs/22231028.json" := by
  decide

end file

/-! ## The file store: the lock of the sweep, and key isolation -/

namespace file

/-- C15, the code at the default directory "kvs", extension "json" and key
"22231028": `SetEx` takes its lock under the registry key "22231028" (lock
object 0) and writes "kvs/22231028.json"; the sweep, reaching the directory
and then that file, takes its lock for the file under the registry key
"kvs/22231028.json" (lock object 2). The two registry keys differ and so do
the lock objects. -/
theorem C15_file_gc_locks_by_path :
    ∃ w1 w2 : World Nat,
      SetEx goPaths defaultWorld 3 "22231028" (some 1) 25 = .ok (w1, none) ∧
      w1.store.filePath goPaths (goPaths.PathEscape "22231028") =
        "kvs/22231028.json" ∧
      (w1.fs.lookup "kvs/22231028.json").isSome = true ∧
      GC goPaths w1 (fun _ => 5)
        [{ path := "kvs", isDir := true }, fileEntry "kvs/22231028.json"] =
        .ok w2 ∧
      w2.store.registered (goPaths.PathEscape "22231028") 0 ∧
      w2.store.registered "kvs/22231028.json" 2 ∧
      goPaths.PathEscape "22231028" ≠ "kvs/22231028.json" := by
  refine ⟨{ store := { defaultWorld.store with
                       fileLocks := some ((∅ : GoMap Nat).insert "22231028" 0),
                       allocated := 1 },
            fs := (∅ : FS).insert "kvs/22231028.json"
              (List.replicate 28 0 ++ [1]) },
    { store := { defaultWorld.store with
                 fileLocks := some ((((∅ : GoMap Nat).insert "22231028" 0).insert
                   "kvs" 1).insert "kvs/22231028.json" 2),
                 allocated := 3 },
      fs := (∅ : FS).insert "kvs/22231028.json"
        (List.replicate 28 0 ++ [1]) },
    rfl, by decide, rfl, rfl, ⟨_, rfl, by decide⟩,
    ⟨_, rfl, by decide⟩, by decide⟩

end file

namespace file

theorem prepFileLock_full {V : Type} (s : Store V) (key : String)
    (locks : GoMap Nat) (h : s.fileLocks = some locks) :
    ∃ (s1 : Store V) (lock : Nat) (locks1 : GoMap Nat),
      s.prepFileLock key = .ok (s1, lock) ∧ s1.fileLocks = some locks1 ∧
      s1.codec = s.codec ∧ s1.directory = s.directory ∧
      s1.filenameExtension = s.filenameExtension := by
  cases hl : locks.lookup key with
  | some lock =>
    refine ⟨s, lock, locks, ?_, h, rfl, rfl, rfl⟩
    simp only [Store.prepFileLock, h, hl]
  | none =>
    refine ⟨{ s with fileLocks := some (locks.insert key s.allocated),
                     allocated := s.allocated + 1 }, s.allocated,
      locks.insert key s.allocated, ?_, rfl, rfl, rfl, rfl⟩
    simp only [Store.prepFileLock, h, hl]

/-- What `Get` answers depends on the world only through the codec, the
directory, the extension and what the path of the key holds. -/
theorem Get_congr {V : Type} (lib : PathLib) (w w1 : World V)
    (locks locks1 : GoMap Nat) (h : w.store.fileLocks = some locks)
    (h1 : w1.store.fileLocks = some locks1)
    (hc : w1.store.codec = w.store.codec)
    (hd : w1.store.directory = w.store.directory)
    (he : w1.store.filenameExtension = w.store.filenameExtension)
    (k : String) (v : Option V)
    (hl : w1.fs.lookup (w.store.filePath lib (lib.PathEscape k)) =
      w.fs.lookup (w.store.filePath lib (lib.PathEscape k))) :
    ∃ r r1 : GetResult V, Get lib w k v = .ok r ∧ Get lib w1 k v = .ok r1 ∧
      r1.answer = r.answer := by
  obtain ⟨s, _, _, hp, _, sc, sd, se⟩ :=
    prepFileLock_full w.store (lib.PathEscape k) locks h
  obtain ⟨s1, _, _, hp1, _, sc1, sd1, se1⟩ :=
    prepFileLock_full w1.store (lib.PathEscape k) locks1 h1
  have hpath : s.filePath lib (lib.PathEscape k) =
      w.store.filePath lib (lib.PathEscape k) := filePath_congr lib _ _ _ se sd
  have hpath1 : s1.filePath lib (lib.PathEscape k) =
      w.store.filePath lib (lib.PathEscape k) :=
    filePath_congr lib _ _ _ (se1.trans he) (sd1.trans hd)
  unfold Get
  cases util.CheckKeyAndValue k v with
  | some err => exact ⟨_, _, rfl, rfl, rfl⟩
  | none =>
    have hread : ioutil.ReadFile lib w1.fs
        (w.store.filePath lib (lib.PathEscape k)) =
        ioutil.ReadFile lib w.fs (w.store.filePath lib (lib.PathEscape k)) := by
      unfold ioutil.ReadFile
      rw [hl]
    simp only [hp, hp1, hpath, hpath1, hread, sc, sc1, hc]
    cases ioutil.ReadFile lib w.fs (w.store.filePath lib (lib.PathEscape k)) with
    | error e =>
      simp only
      split_ifs <;> exact ⟨_, _, rfl, rfl, rfl⟩
    | ok data =>
      simp only
      cases (w.store.codec.Unmarshal data { Data := v }).1 with
      | some err => exact ⟨_, _, rfl, rfl, rfl⟩
      | none => exact ⟨_, _, rfl, rfl, rfl⟩

/-- What `Has` answers depends on the world only through the directory, the
extension and what the path of the key holds. -/
theorem Has_congr {V : Type} (lib : PathLib) (w w1 : World V)
    (locks locks1 : GoMap Nat) (h : w.store.fileLocks = some locks)
    (h1 : w1.store.fileLocks = some locks1)
    (hd : w1.store.directory = w.store.directory)
    (he : w1.store.filenameExtension = w.store.filenameExtension)
    (k : String)
    (hl : w1.fs.lookup (w.store.filePath lib (lib.PathEscape k)) =
      w.fs.lookup (w.store.filePath lib (lib.PathEscape k))) :
    ∃ r r1 : World V × Bool, Has lib w k = .ok r ∧ Has lib w1 k = .ok r1 ∧
      r1.2 = r.2 := by
  obtain ⟨s, _, _, hp, _, _, sd, se⟩ :=
    prepFileLock_full w.store (lib.PathEscape k) locks h
  obtain ⟨s1, _, _, hp1, _, _, sd1, se1⟩ :=
    prepFileLock_full w1.store (lib.PathEscape k) locks1 h1
  have hpath : s.filePath lib (lib.PathEscape k) =
      w.store.filePath lib (lib.PathEscape k) := filePath_congr lib _ _ _ se sd
  have hpath1 : s1.filePath lib (lib.PathEscape k) =
      w.store.filePath lib (lib.PathEscape k) :=
    filePath_congr lib _ _ _ (se1.trans he) (sd1.trans hd)
  unfold Has
  cases util.CheckKey k with
  | some err => exact ⟨_, _, rfl, rfl, rfl⟩
  | none =>
    have hread : ioutil.ReadFile lib w1.fs
        (w.store.filePath lib (lib.PathEscape k)) =
        ioutil.ReadFile lib w.fs (w.store.filePath lib (lib.PathEscape k)) := by
      unfold ioutil.ReadFile
      rw [hl]
    simp only [hp, hp1, hpath, hpath1, hread]
    cases ioutil.ReadFile lib w.fs (w.store.filePath lib (lib.PathEscape k)) with
    | error e => exact ⟨_, _, rfl, rfl, rfl⟩
    | ok data => exact ⟨_, _, rfl, rfl, rfl⟩

/-- `SetEx` on a store that is not closed returns and changes no file but the
one at the path of its key. -/
theorem SetEx_effect {V : Type} (lib : PathLib) (w : World V)
    (locks : GoMap Nat) (h : w.store.fileLocks = some locks) (now : Time)
    (k : String) (v : Option V) (expires : Duration) :
    ∃ (r : World V × Option GoError) (locks1 : GoMap Nat),
      SetEx lib w now k v expires = .ok r ∧
      r.1.store.fileLocks = some locks1 ∧
      r.1.store.codec = w.store.codec ∧
      r.1.store.directory = w.store.directory ∧
      r.1.store.filenameExtension = w.store.filenameExtension ∧
      ∀ p, p ≠ w.store.filePath lib (lib.PathEscape k) →
        r.1.fs.lookup p = w.fs.lookup p := by
  obtain ⟨s, _, locks1, hp, ho, sc, sd, se⟩ :=
    prepFileLock_full w.store (lib.PathEscape k) locks h
  have hpath : s.filePath lib (lib.PathEscape k) =
      w.store.filePath lib (lib.PathEscape k) := filePath_congr lib _ _ _ se sd
  unfold SetEx
  cases util.CheckKeyAndValue k v with
  | some err => exact ⟨_, locks, rfl, h, rfl, rfl, rfl, fun _ _ => rfl⟩
  | none =>
    simp only
    cases w.store.codec.Marshal
      (if expires = 0 then ({ Data := v } : Item V)
        else { ExpiresAt := Time.Add now expires, Data := v }) with
    | error err => exact ⟨_, locks, rfl, h, rfl, rfl, rfl, fun _ _ => rfl⟩
    | ok data =>
      simp only [hp, hpath, ioutil.WriteFile]
      exact ⟨_, locks1, rfl, ho, sc, sd, se,
        fun p hne => AList.lookup_insert_ne hne⟩

/-- `Delete` on a store that is not closed returns and changes no file but
the one at the path of its key. -/
theorem Delete_effect {V : Type} (lib : PathLib) (w : World V)
    (locks : GoMap Nat) (h : w.store.fileLocks = some locks) (k : String) :
    ∃ (r : World V × Option GoError) (locks1 : GoMap Nat),
      Delete lib w k = .ok r ∧
      r.1.store.fileLocks = some locks1 ∧
      r.1.store.codec = w.store.codec ∧
      r.1.store.directory = w.store.directory ∧
      r.1.store.filenameExtension = w.store.filenameExtension ∧
      ∀ p, p ≠ w.store.filePath lib (lib.PathEscape k) →
        r.1.fs.lookup p = w.fs.lookup p := by
  obtain ⟨s, _, locks1, hp, ho, sc, sd, se⟩ :=
    prepFileLock_full w.store (lib.PathEscape k) locks h
  have hpath : s.filePath lib (lib.PathEscape k) =
      w.store.filePath lib (lib.PathEscape k) := filePath_congr lib _ _ _ se sd
  have hrm : ∀ p, p ≠ w.store.filePath lib (lib.PathEscape k) →
      (os.Remove lib w.fs (w.store.filePath lib (lib.PathEscape k))).1.lookup p =
        w.fs.lookup p := by
    intro p hne
    unfold os.Remove
    cases w.fs.lookup (w.store.filePath lib (lib.PathEscape k)) with
    | none => rfl
    | some data => exact AList.lookup_erase_ne hne
  unfold Delete
  cases util.CheckKey k with
  | some err => exact ⟨_, locks, rfl, h, rfl, rfl, rfl, fun _ _ => rfl⟩
  | none =>
    simp only [hp, hpath]
    split_ifs
    · exact ⟨_, locks1, rfl, ho, sc, sd, se, hrm⟩
    · exact ⟨_, locks1, rfl, ho, sc, sd, se, hrm⟩

theorem inDir_injective (dir n1 n2 : String)
    (h : filepath.inDir dir n1 = filepath.inDir dir n2) : n1 = n2 := by
  unfold filepath.inDir at h
  split_ifs at h
  · apply String.ext
    have := congrArg String.data h
    simpa [String.data_append] using this
  · exact h
  · apply String.ext
    have := congrArg String.data h
    simpa [String.data_append] using this

theorem fileName_injective {V : Type} (s : Store V) (e1 e2 : String)
    (h : s.fileName e1 = s.fileName e2) : e1 = e2 := by
  unfold Store.fileName at h
  split_ifs at h
  · apply String.ext
    have := congrArg String.data h
    simpa [String.data_append] using this
  · exact h

/-- Distinct keys have distinct paths, when the extension holds no separator
and, with the empty extension, neither key is "." or "..". -/
theorem filePath_injective {V : Type} (s : Store V) (k1 k2 : String)
    (hk1 : k1 ≠ "") (hk2 : k2 ≠ "")
    (hslash : '/' ∉ s.filenameExtension.data)
    (hd1 : s.filenameExtension = "" → k1 ≠ "." ∧ k1 ≠ "..")
    (hd2 : s.filenameExtension = "" → k2 ≠ "." ∧ k2 ≠ "..")
    (h : s.filePath goPaths (goPaths.PathEscape k1) =
      s.filePath goPaths (goPaths.PathEscape k2)) : k1 = k2 := by
  have f1 := fileName_isFileName s k1 hk1 hslash hd1
  have f2 := fileName_isFileName s k2 hk2 hslash hd2
  rw [filePath_eq, filePath_eq] at h
  have h2 : filepath.Clean (s.directory ++ "/" ++ s.fileName (url.PathEscape k1)) =
      filepath.Clean (s.directory ++ "/" ++ s.fileName (url.PathEscape k2)) := h
  by_cases hdir : s.directory = ""
  · rw [hdir, filepath.Clean_root_join _ f1, filepath.Clean_root_join _ f2] at h2
    have h3 : s.fileName (url.PathEscape k1) = s.fileName (url.PathEscape k2) := by
      apply String.ext
      have := congrArg String.data h2
      simpa [String.data_append] using this
    exact url.PathEscape_injective k1 k2 (fileName_injective s _ _ h3)
  · rw [filepath.Clean_join s.directory _ hdir f1,
      filepath.Clean_join s.directory _ hdir f2] at h2
    exact url.PathEscape_injective k1 k2
      (fileName_injective s _ _ (inDir_injective _ _ _ h2))

end file

namespace file

/-- C17, the claim as stated fails: on the directory "/" with the empty
extension the distinct keys "." and ".." have the same path "/"; and with
the extension "/../x" on "kvs" the distinct keys "a" and "b" have the same
path "kvs/x", so that `Get("b", &x)`, which finds nothing on the new store,
finds the value 1 after `SetEx("a", 1)`. -/
theorem C17_file_keys_collide_counterexample :
    ("." : String) ≠ ".." ∧
    (New "/" (some "") itemCodec).filePath goPaths (goPaths.PathEscape ".") =
      "/" ∧
    (New "/" (some "") itemCodec).filePath goPaths (goPaths.PathEscape "..") =
      "/" ∧
    ("a" : String) ≠ "b" ∧
    oddExtensionWorld.store.filePath goPaths (goPaths.PathEscape "a") =
      "kvs/x" ∧
    oddExtensionWorld.store.filePath goPaths (goPaths.PathEscape "b") =
      "kvs/x" ∧
    (∃ (g : GetResult Nat) (w1 : World Nat) (g1 : GetResult Nat),
      Get goPaths oddExtensionWorld "b" (some 0) = .ok g ∧
      g.answer = (false, none, some 0) ∧
      SetEx goPaths oddExtensionWorld 3 "a" (some 1) 0 = .ok (w1, none) ∧
      Get goPaths w1 "b" (some 0) = .ok g1 ∧
      g1.answer = (true, none, some 1)) := by
  refine ⟨by decide, by decide, by decide, by decide, by decide, by decide,
    ?_⟩
  exact ⟨{ world := { store := { oddExtensionWorld.store with
                                  fileLocks := some ((∅ : GoMap Nat).insert "b" 0),
                                  allocated := 1 },
                      fs := ∅ },
           found := false, err := none, out := some 0 },
    { store := { oddExtensionWorld.store with
                 fileLocks := some ((∅ : GoMap Nat).insert "a" 0),
                 allocated := 1 },
      fs := (∅ : FS).insert "kvs/x" [1] },
    { world := { store := { oddExtensionWorld.store with
                            fileLocks := some (((∅ : GoMap Nat).insert "a" 0).insert
                              "b" 1),
                            allocated := 2 },
                 fs := (∅ : FS).insert "kvs/x" [1] },
      found := true, err := none, out := some 1 },
    rfl, rfl, rfl, rfl, rfl⟩

/-- C17 as amended: key isolation in the file store that is not closed, for
any directory and an extension that holds no separator: two distinct keys
other than "", neither of them "." or ".." when the extension is empty,
have distinct paths; so `SetEx` on the one and `Delete` of the one return
and leave what `Get` (found, err and what the target holds) and `Has`
return for the other as it was. -/
theorem C17_file_key_isolation {V : Type} (w : World V) (locks : GoMap Nat)
    (k1 k2 : String) (hopen : w.store.fileLocks = some locks)
    (hk1 : k1 ≠ "") (hk2 : k2 ≠ "")
    (hne : k1 ≠ k2) (hslash : '/' ∉ w.store.filenameExtension.data)
    (hd1 : w.store.filenameExtension = "" → k1 ≠ "." ∧ k1 ≠ "..")
    (hd2 : w.store.filenameExtension = "" → k2 ≠ "." ∧ k2 ≠ "..") :
    w.store.filePath goPaths (goPaths.PathEscape k1) ≠
      w.store.filePath goPaths (goPaths.PathEscape k2) ∧
    (∀ (now : Time) (v : Option V) (expires : Duration) (target : Option V),
      ∃ (r : World V × Option GoError) (g g1 : GetResult V),
        SetEx goPaths w now k1 v expires = .ok r ∧
        Get goPaths w k2 target = .ok g ∧
        Get goPaths r.1 k2 target = .ok g1 ∧ g1.answer = g.answer) ∧
    (∀ (now : Time) (v : Option V) (expires : Duration),
      ∃ (r : World V × Option GoError) (h h1 : World V × Bool),
        SetEx goPaths w now k1 v expires = .ok r ∧
        Has goPaths w k2 = .ok h ∧
        Has goPaths r.1 k2 = .ok h1 ∧ h1.2 = h.2) ∧
    (∀ target : Option V,
      ∃ (r : World V × Option GoError) (g g1 : GetResult V),
        Delete goPaths w k1 = .ok r ∧
        Get goPaths w k2 target = .ok g ∧
        Get goPaths r.1 k2 target = .ok g1 ∧ g1.answer = g.answer) ∧
    (∃ (r : World V × Option GoError) (h h1 : World V × Bool),
      Delete goPaths w k1 = .ok r ∧
      Has goPaths w k2 = .ok h ∧
      Has goPaths r.1 k2 = .ok h1 ∧ h1.2 = h.2) := by
  have hpath : w.store.filePath goPaths (goPaths.PathEscape k2) ≠
      w.store.filePath goPaths (goPaths.PathEscape k1) := fun hh =>
    hne (filePath_injective w.store k1 k2 hk1 hk2 hslash hd1 hd2 hh.symm)
  refine ⟨fun hh => hpath hh.symm, ?_, ?_, ?_, ?_⟩
  · intro now v expires target
    obtain ⟨r, locks1, hr, ho, hc, hd, he, hfs⟩ :=
      SetEx_effect goPaths w locks hopen now k1 v expires
    obtain ⟨g, g1, hg, hg1, ha⟩ := Get_congr goPaths w r.1 locks locks1 hopen
      ho hc hd he k2 target (hfs _ hpath)
    exact ⟨r, g, g1, hr, hg, hg1, ha⟩
  · intro now v expires
    obtain ⟨r, locks1, hr, ho, _, hd, he, hfs⟩ :=
      SetEx_effect goPaths w locks hopen now k1 v expires
    obtain ⟨h, h1, hh, hh1, ha⟩ := Has_congr goPaths w r.1 locks locks1 hopen
      ho hd he k2 (hfs _ hpath)
    exact ⟨r, h, h1, hr, hh, hh1, ha⟩
  · intro target
    obtain ⟨r, locks1, hr, ho, hc, hd, he, hfs⟩ :=
      Delete_effect goPaths w locks hopen k1
    obtain ⟨g, g1, hg, hg1, ha⟩ := Get_congr goPaths w r.1 locks locks1 hopen
      ho hc hd he k2 target (hfs _ hpath)
    exact ⟨r, g, g1, hr, hg, hg1, ha⟩
  · obtain ⟨r, locks1, hr, ho, _, hd, he, hfs⟩ :=
      Delete_effect goPaths w locks hopen k1
    obtain ⟨h, h1, hh, hh1, ha⟩ := Has_congr goPaths w r.1 locks locks1 hopen
      ho hd he k2 (hfs _ hpath)
    exact ⟨r, h, h1, hr, hh, hh1, ha⟩

/-- C17 as amended, on a new store with the default directory and extension
and the keys "a" and "b": the paths differ. -/
theorem C17_file_key_isolation_witness :
    defaultWorld.store.filePath goPaths (goPaths.PathEscape "a") ≠
      defaultWorld.store.filePath goPaths (goPaths.PathEscape "b") :=
  (C17_file_key_isolation defaultWorld ∅ "a" "b" rfl (by decide) (by decide)
    (by decide) (by decide) (by decide) (by decide)).1

end file

end gokv
